import Mathlib

/-! # Timer: the repeating scheduler and its invalidation handshake

A shallow embedding of `src/Timer.hpp` (class `Timer`) and of the task and the
predicate of the driver in `src/main.cpp`.

The class has two `std::atomic_bool` members, a mutex and a condition variable.
One thread (the owner) calls `schedule`, `schedule_callback` and `invaildate`;
every scheduling call that passes its guard starts one detached background
thread (a worker).  The embedding is a small-step machine: a configuration
holds the members of the object, the position of the owner inside
`invaildate`, the live workers with their positions inside the thread lambda,
the memory the bound task works on and a log of what the threads did.  One
step executes one atomic action of the thread named by the label: one load or
store of an atomic flag, one mutex operation, one sleep, one invocation of the
task.  An interleaving is a list of labels.

What the machine takes from the C++ standard:
* loads and stores of the atomic flags use the default sequentially consistent
  ordering, so every execution of the threads is an interleaving of such
  actions;
* `wait(lock, pred)` is `while (!pred()) wait(lock);`, `wait(lock)` releases
  the mutex and blocks in one action, and a blocked thread is woken by
  `notify_one` or spuriously;
* a `std::packaged_task` stores the value or the exception of the callable in
  the shared state of its future, and `get()` returns the one or rethrows the
  other;
* an exception that leaves the function of a `std::thread` ends the process
  (`std::terminate`).

Time is not part of the machine: a sleep is one action that records the count
of the duration handed to `sleep_for`.
-/

namespace Timer

/-- A bound task, `std::bind(func, args...)` wrapped in a `std::packaged_task`:
it works on the process memory `σ` and ends with a value or with an exception;
either way the outcome is stored in the shared state of its future. -/
abbrev Task (σ ε ρ : Type) := σ → Except ε ρ × σ

/-- What the threads did, in the order in which it happened. -/
inductive Event where
  /-- `std::this_thread::sleep_for(d)` was executed, `d` a duration with the
  given count of time units; with a count that is not positive the call does
  not block. -/
  | slept (count : Int)
  /-- `(*t)()` ran the bound task once. -/
  | invoked
  /-- `callback(ret.get())` returned the given value. -/
  | consulted (keep : Bool)
  deriving DecidableEq, Repr

/-- `time_unit(interval)` (Timer.hpp:101, 140, 174) with the default
`std::chrono::milliseconds`: the `uint64_t` parameter, which holds
`interval % 2^64`, is converted to the count of the duration, a signed 64-bit
integer, so a value from `2^63` on becomes a negative count. -/
def time_unit (interval : Nat) : Int :=
  if interval % 2 ^ 64 < 2 ^ 63 then ((interval % 2 ^ 64 : Nat) : Int)
  else ((interval % 2 ^ 64 : Nat) : Int) - 2 ^ 64

/-- The three ways out of `Timer::invaildate` (Timer.hpp:61-78). -/
inductive Exit where
  /-- The guard `if (!invaild)` of line 62 failed. -/
  | immediate
  /-- The guard `if (!try_to_invaild)` of line 63 failed. -/
  | pending
  /-- The blocking path of lines 64-74 was taken to its end. -/
  | handshake
  deriving DecidableEq, Repr

/-- The calls the owner makes on one Timer object. -/
inductive Call (σ ε ρ : Type) where
  /-- `schedule(interval, repeat, func, args...)`, Timer.hpp:94. -/
  | schedule (interval : Nat) (rep : Bool) (func : Task σ ε ρ)
  /-- `schedule_callback(interval, repeat, callback, func, args...)`, Timer.hpp:132. -/
  | schedule_callback (interval : Nat) (rep : Bool) (callback : ρ → Bool) (func : Task σ ε ρ)
  /-- `invaildate()`, Timer.hpp:61. -/
  | invaildate

/-- The destructor `~Timer()` (Timer.hpp:52-54): its body is the single call
`invaildate()`. -/
def Call.destructor {σ ε ρ : Type} : Call σ ε ρ := Call.invaildate

/-- Is the call a scheduling call? -/
def Call.isSchedule {σ ε ρ : Type} : Call σ ε ρ → Bool
  | .schedule _ _ _ => true
  | .schedule_callback _ _ _ _ => true
  | .invaildate => false

/-- Position of the owner thread. Outside `idle` it is inside `invaildate`,
past the load of `invaild` in line 62. -/
inductive OPc where
  /-- Between two calls. -/
  | idle
  /-- Line 63: about to load `try_to_invaild`. -/
  | testTry
  /-- Line 64: about to store `try_to_invaild = true`. -/
  | setTry
  /-- Line 66: about to lock `mtx`. -/
  | lock
  /-- Lines 67-69: holding `mtx`, about to evaluate the wait predicate. -/
  | waitCheck
  /-- Inside `invaild_cond.wait`, `mtx` released. -/
  | blocked
  /-- Line 70: about to load `invaild`. -/
  | testFlag
  /-- Line 71: about to store `try_to_invaild = false`. -/
  | clearTry
  /-- Line 73: about to store `invaild = false`. -/
  | clearFlag
  /-- Line 74: end of the scope of `lock`, then `return *this`. -/
  | unlock
  deriving DecidableEq, Repr

/-- Position of a worker inside the thread lambda (lines 98-112, 136-152). -/
inductive WPc where
  /-- Lines 100-101 (139-140): bind the task and sleep. -/
  | sleep
  /-- Line 104 (143): `(*t)()`. -/
  | invoke
  /-- Line 145, `schedule_callback` only: `keep_running = callback(ret.get())`. -/
  | deliver
  /-- Line 106 (146): the condition of the do-while. -/
  | check
  /-- Line 108 (148): about to lock `mtx`. -/
  | lock
  /-- Line 109 (149): `invaild = true`. -/
  | setFlag
  /-- Line 110 (150): `invaild_cond.notify_one()`. -/
  | notify
  /-- Line 111 (151): end of the scope of `locker`; the thread ends. -/
  | unlock
  deriving DecidableEq, Repr

/-- A live background thread: its position and what its lambda captured or
declared. `callback` is `none` for a thread started by `schedule`. -/
structure Worker (σ ε ρ : Type) where
  pc : WPc
  interval : Nat
  rep : Bool
  callback : Option (ρ → Bool)
  func : Task σ ε ρ
  keep_running : Bool
  ret : Option (Except ε ρ)

/-- The thread lambda at its first statement. -/
def Worker.start {σ ε ρ : Type} (interval : Nat) (rep : Bool)
    (callback : Option (ρ → Bool)) (func : Task σ ε ρ) : Worker σ ε ρ :=
  { pc := .sleep, interval := interval, rep := rep, callback := callback,
    func := func, keep_running := true, ret := none }

/-- Has the worker left the do-while loop? -/
def Worker.leftLoop {σ ε ρ : Type} (w : Worker σ ε ρ) : Bool :=
  match w.pc with
  | .lock | .setFlag | .notify | .unlock => true
  | _ => false

/-- Does the worker hold `mtx`? -/
def Worker.inCS {σ ε ρ : Type} (w : Worker σ ε ρ) : Bool :=
  match w.pc with
  | .setFlag | .notify | .unlock => true
  | _ => false

/-- One Timer object together with the threads working on it. -/
structure Config (σ ε ρ : Type) where
  /-- `std::atomic_bool invaild`. -/
  invaild : Bool
  /-- `std::atomic_bool try_to_invaild`. -/
  try_to_invaild : Bool
  /-- `std::mutex mtx`: is it locked? -/
  mtx : Bool
  /-- `std::condition_variable invaild_cond`: has the thread blocked in `wait`
  been woken up? -/
  woken : Bool
  /-- Position of the owner. -/
  pc : OPc
  /-- The calls the owner still has to make; outside `idle` the head is the
  `invaildate` in progress. -/
  calls : List (Call σ ε ρ)
  /-- The live background threads. -/
  workers : List (Worker σ ε ρ)
  /-- The memory the bound tasks work on (the static counter of `print`). -/
  memory : σ
  /-- What has happened so far. -/
  log : List Event
  /-- How the calls of `invaildate` that have returned did so. -/
  exits : List Exit
  /-- `std::terminate` was called: an exception left a thread function. -/
  aborted : Bool

/-- A Timer with both flags false, `mtx` free and no thread but the owner, who
is about to make the given calls; memory, log and exits are as given. -/
def resume {σ ε ρ : Type} (calls : List (Call σ ε ρ)) (memory : σ)
    (log : List Event) (exits : List Exit) : Config σ ε ρ :=
  { invaild := false, try_to_invaild := false, mtx := false, woken := false,
    pc := .idle, calls := calls, workers := [], memory := memory, log := log,
    exits := exits, aborted := false }

/-- `Timer::Timer()` (Timer.hpp:45): both flags false; the owner is about to
make the given calls on the new object. -/
def init {σ ε ρ : Type} (calls : List (Call σ ε ρ)) (memory : σ) : Config σ ε ρ :=
  resume calls memory [] []

/-- Number of invocations of the task in a log. -/
def invocations : List Event → Nat
  | [] => 0
  | .invoked :: l => invocations l + 1
  | _ :: l => invocations l

/-- Number of times the callback answered `true` in a log. -/
def continues : List Event → Nat
  | [] => 0
  | .consulted true :: l => continues l + 1
  | _ :: l => continues l

/-- `Timer::schedule` (Timer.hpp:94-115) as the owner executes it: the guard of
line 95 and, if `invaild` is false, the start of the detached thread of line
98; then the call returns. What the thread does is `workerStep`. -/
def schedule {σ ε ρ : Type} (interval : Nat) (rep : Bool) (func : Task σ ε ρ)
    (c : Config σ ε ρ) : Config σ ε ρ :=
  if c.invaild then { c with calls := c.calls.tail }
  else { c with calls := c.calls.tail,
                workers := c.workers ++ [Worker.start interval rep none func] }

/-- `Timer::schedule_callback` (Timer.hpp:132-155) as the owner executes it: the
guard of line 133 and, if `invaild` is false, the start of the detached thread
of line 136; then the call returns. -/
def schedule_callback {σ ε ρ : Type} (interval : Nat) (rep : Bool) (callback : ρ → Bool)
    (func : Task σ ε ρ) (c : Config σ ε ρ) : Config σ ε ρ :=
  if c.invaild then { c with calls := c.calls.tail }
  else { c with calls := c.calls.tail,
                workers := c.workers ++ [Worker.start interval rep (some callback) func] }

/-- `Timer::invaildate` (Timer.hpp:61-78), one atomic action at a time, from
the position the owner is at. -/
def invaildate {σ ε ρ : Type} (c : Config σ ε ρ) : Config σ ε ρ :=
  match c.pc with
  | .idle =>
    -- line 62: `if (!invaild)`
    if c.invaild then { c with calls := c.calls.tail, exits := c.exits ++ [.immediate] }
    else { c with pc := .testTry }
  | .testTry =>
    -- line 63: `if (!try_to_invaild)`
    if c.try_to_invaild then
      { c with pc := .idle, calls := c.calls.tail, exits := c.exits ++ [.pending] }
    else { c with pc := .setTry }
  | .setTry => { c with try_to_invaild := true, pc := .lock }
  | .lock => if c.mtx then c else { c with mtx := true, pc := .waitCheck }
  | .waitCheck =>
    -- `wait(lock, pred)` is `while (!pred()) wait(lock);`
    if c.invaild then { c with pc := .testFlag }
    else { c with mtx := false, woken := false, pc := .blocked }
  | .blocked =>
    -- a woken thread leaves `wait(lock)` once it has `mtx` again
    if c.woken && !c.mtx then { c with mtx := true, woken := false, pc := .waitCheck }
    else c
  | .testFlag =>
    -- line 70: `if (invaild == true)`
    if c.invaild then { c with pc := .clearTry } else { c with pc := .clearFlag }
  | .clearTry => { c with try_to_invaild := false, pc := .clearFlag }
  | .clearFlag => { c with invaild := false, pc := .unlock }
  | .unlock =>
    { c with mtx := false, pc := .idle, calls := c.calls.tail,
             exits := c.exits ++ [.handshake] }

/-- One atomic action of the owner: between two calls it enters the next call,
inside `invaildate` it goes on with it. -/
def ownerStep {σ ε ρ : Type} (c : Config σ ε ρ) : Config σ ε ρ :=
  match c.pc with
  | .idle =>
    match c.calls with
    | [] => c
    | .schedule interval rep func :: _ => schedule interval rep func c
    | .schedule_callback interval rep callback func :: _ =>
      schedule_callback interval rep callback func c
    | .invaildate :: _ => invaildate c
  | _ => invaildate c

/-- The condition of the do-while: `!try_to_invaild && repeat` in `schedule`
(line 106), `!try_to_invaild && keep_running && repeat` in `schedule_callback`
(line 146). -/
def loopCondition {σ ε ρ : Type} (try_to_invaild : Bool) (w : Worker σ ε ρ) : Bool :=
  match w.callback with
  | none => !try_to_invaild && w.rep
  | some _ => !try_to_invaild && w.keep_running && w.rep

/-- One atomic action of the `i`-th live background thread: the lambda of
`schedule` (Timer.hpp:98-112) or of `schedule_callback` (Timer.hpp:136-152). An
invocation of the task is one action: the task is taken to terminate. -/
def workerStep {σ ε ρ : Type} (i : Nat) (c : Config σ ε ρ) : Config σ ε ρ :=
  match c.workers[i]? with
  | none => c
  | some w =>
    match w.pc with
    | .sleep =>
      { c with log := c.log ++ [.slept (time_unit w.interval)],
               workers := c.workers.set i { w with pc := .invoke, ret := none } }
    | .invoke =>
      -- the packaged task stores the value or the exception in its future
      { c with memory := (w.func c.memory).2,
               log := c.log ++ [.invoked],
               workers := c.workers.set i
                 { w with ret := some (w.func c.memory).1,
                          pc := if w.callback.isSome then .deliver else .check } }
    | .deliver =>
      match w.callback, w.ret with
      | some callback, some (.ok v) =>
        { c with log := c.log ++ [.consulted (callback v)],
                 workers := c.workers.set i
                   { w with keep_running := callback v, pc := .check } }
      | some _, some (.error _) =>
        -- `ret.get()` rethrows; nothing catches it in the thread function
        { c with aborted := true }
      | _, _ => c
    | .check =>
      { c with workers := c.workers.set i
                 { w with pc := if loopCondition c.try_to_invaild w then .sleep else .lock } }
    | .lock =>
      if c.mtx then c
      else { c with mtx := true, workers := c.workers.set i { w with pc := .setFlag } }
    | .setFlag =>
      { c with invaild := true, workers := c.workers.set i { w with pc := .notify } }
    | .notify =>
      { c with woken := c.woken || (c.pc == .blocked),
               workers := c.workers.set i { w with pc := .unlock } }
    | .unlock =>
      { c with mtx := false, workers := c.workers.eraseIdx i }

/-- A wake-up of the thread blocked in `invaild_cond.wait` that no
`notify_one` caused; a condition variable is allowed such wake-ups. -/
def spuriousStep {σ ε ρ : Type} (c : Config σ ε ρ) : Config σ ε ρ :=
  { c with woken := c.woken || (c.pc == .blocked) }

/-- Who takes the next step. -/
inductive Actor where
  | owner
  | worker (i : Nat)
  | spurious
  deriving DecidableEq, Repr

/-- One step of the whole system. After `std::terminate` nothing runs. -/
def step {σ ε ρ : Type} (a : Actor) (c : Config σ ε ρ) : Config σ ε ρ :=
  if c.aborted then c
  else
    match a with
    | .owner => ownerStep c
    | .worker i => workerStep i c
    | .spurious => spuriousStep c

/-- Run an interleaving. -/
def exec {σ ε ρ : Type} : List Actor → Config σ ε ρ → Config σ ε ρ
  | [], c => c
  | a :: s, c => exec s (step a c)

/-- `Timer::wait_sync` (Timer.hpp:170-180), a static member function: it runs
in the calling thread, on the memory of the process and next to whatever Timer
objects there are. It returns the outcome of `ret.get()`: the value, or the
exception rethrown to the caller. -/
def wait_sync {σ ε ρ : Type} (interval : Nat) (func : Task σ ε ρ) (c : Config σ ε ρ) :
    Except ε ρ × Config σ ε ρ :=
  -- line 174: sleep_for
  let c1 : Config σ ε ρ := { c with log := c.log ++ [Event.slept (time_unit interval)] }
  -- line 177: (*t)()
  let out := func c1.memory
  let c2 : Config σ ε ρ := { c1 with memory := out.2, log := c1.log ++ [Event.invoked] }
  -- line 179: return ret.get()
  (out.1, c2)

/-- The task of `main.cpp`: `print` increments a static counter and returns it. -/
def print : Task Nat Unit Nat := fun counter => (.ok (counter + 1), counter + 1)

/-- The predicate of `main.cpp`: `callback` answers false once the value
exceeds 7. -/
def callback (return_value : Nat) : Bool :=
  if return_value > 7 then false else true

/-! ## Invariants of the reachable configurations -/

variable {σ ε ρ : Type}

/-- Does the owner hold `mtx`? -/
def ownerInCS : OPc → Bool
  | .waitCheck | .testFlag | .clearTry | .clearFlag | .unlock => true
  | _ => false

/-- Facts that hold in every configuration reachable from a new Timer, whatever
calls the owner makes. -/
structure Sound (c : Config σ ε ρ) : Prop where
  mutex : (ownerInCS c.pc).toNat + c.workers.countP Worker.inCS = c.mtx.toNat
  woken : c.woken = true → c.pc = .blocked
  testFlag : c.pc = .testFlag → c.invaild = true
  clearFlag : c.pc = .clearFlag → c.try_to_invaild = false
  unlock : c.pc = .unlock → c.invaild = false ∧ c.try_to_invaild = false

/-- Is `try_to_invaild` set by the owner at this position? -/
def tryOn : OPc → Bool
  | .lock | .waitCheck | .blocked | .testFlag | .clearTry => true
  | _ => false

/-- Is the owner past the wait of line 67? -/
def pastWait : OPc → Bool
  | .testFlag | .clearTry | .clearFlag | .unlock => true
  | _ => false

/-- Has every thread that was started stored `invaild = true`? -/
def flagSet : List (Worker σ ε ρ) → Bool
  | [] => true
  | w :: _ => w.pc == .notify || w.pc == .unlock

/-- The first `invaildate` after one scheduling call on a new Timer has not
returned yet. -/
structure InCall (rest : List (Call σ ε ρ)) (c : Config σ ε ρ) : Prop where
  calls : c.calls = .invaildate :: rest
  exits : c.exits = []
  one : c.workers.length ≤ 1
  try_ : c.try_to_invaild = tryOn c.pc
  flag : c.invaild = (flagSet c.workers && !(c.pc == .unlock))
  late : pastWait c.pc = true → c.workers = []

/-- The first `invaildate` has just returned: the owner has not moved since. -/
structure Returned (rest : List (Call σ ε ρ)) (c : Config σ ε ρ) : Prop where
  calls : c.calls = rest
  one : c.workers.length ≤ 1
  left : ∀ w ∈ c.workers, w.leftLoop = true
  exits : c.exits = [.immediate] ∨ c.exits = [.handshake]
  fresh : c.exits = [.handshake] → c = resume rest c.memory c.log [.handshake]

/-- The first `invaildate` has returned. -/
structure Late (rest : List (Call σ ε ρ)) (c : Config σ ε ρ) : Prop where
  len : c.calls.length ≤ rest.length
  inside : c.pc ≠ .idle → c.calls ≠ []
  just : c.calls.length = rest.length → c.pc = .idle → Returned rest c

/-- The three phases of `first; invaildate(); rest` on a new Timer. -/
def Phase (first : Call σ ε ρ) (rest : List (Call σ ε ρ)) (m : σ) (c : Config σ ε ρ) : Prop :=
  c = init (first :: .invaildate :: rest) m ∨ InCall rest c ∨ Late rest c

/-- A call of `invaildate` on a Timer that nobody will signal: no thread is
live, `invaild` is false, and the owner is at or before the wait. -/
structure Stuck (rest : List (Call σ ε ρ)) (log : List Event) (exits : List Exit)
    (c : Config σ ε ρ) : Prop where
  calls : c.calls = .invaildate :: rest
  log : c.log = log
  exits : c.exits = exits
  workers : c.workers = []
  flag : c.invaild = false
  try_ : c.try_to_invaild = tryOn c.pc
  wait : pastWait c.pc = false

/-- The configuration with an earlier history put in front of its log and
exits. -/
def withHistory (log : List Event) (exits : List Exit) (c : Config σ ε ρ) : Config σ ε ρ :=
  { c with log := log ++ c.log, exits := exits ++ c.exits }

/-- No scheduling call is left among the calls. -/
def noSchedule (calls : List (Call σ ε ρ)) : Prop := ∀ call ∈ calls, call.isSchedule = false

/-- The only thread is one that `schedule` started with the given `repeat`, or
it has ended; no exception has left a thread. -/
structure PlainRun (rep : Bool) (c : Config σ ε ρ) : Prop where
  calls : noSchedule c.calls
  alive : c.aborted = false
  one : c.workers.length ≤ 1
  plain : ∀ w ∈ c.workers, w.callback = none ∧ w.pc ≠ .deliver ∧ w.rep = rep

/-- Steps of the first iteration the thread still has to take before the task
has been invoked. -/
def todo : List (Worker σ ε ρ) → Nat
  | [] => 0
  | w :: _ =>
    match w.pc with
    | .sleep => 2
    | .invoke => 1
    | _ => 0

/-- After `schedule` with `repeat = false`: the task has been invoked once as
soon as the thread is past line 104, and not before. -/
structure Once (c : Config σ ε ρ) : Prop where
  run : PlainRun false c
  count : invocations c.log = if todo c.workers = 0 then 1 else 0

/-- Invocations the thread still owes to the iteration it is in. -/
def due : List (Worker σ ε ρ) → Nat
  | [] => 0
  | w :: _ =>
    match w.pc with
    | .sleep => 1
    | .invoke => 1
    | _ => 0

/-- Steps the thread has to take to get out of the loop once the condition of
the do-while is false. -/
def toLeave : List (Worker σ ε ρ) → Nat
  | [] => 0
  | w :: _ =>
    match w.pc with
    | .sleep => 3
    | .invoke => 2
    | .check => 1
    | _ => 0

/-- After the owner has stored `try_to_invaild = true` during the iteration
that brings the number of invocations to `k`: while the thread is in the loop
the flag stays set and the owner stays in front of or inside the wait. -/
structure After (k : Nat) (c : Config σ ε ρ) : Prop where
  run : PlainRun true c
  count : invocations c.log + due c.workers = k
  hold : ∀ w ∈ c.workers, w.leftLoop = false →
    c.try_to_invaild = true ∧ c.invaild = false ∧
      (c.pc = .lock ∨ c.pc = .waitCheck ∨ c.pc = .blocked)

/-- A task that always throws. -/
def failing : Task Nat Unit Nat := fun counter => (.error (), counter + 1)

/-- The thread of a `schedule_callback` holds a future with an exception in it
and is about to call `ret.get()`. -/
structure Failed (log : List Event) (c : Config σ ε ρ) : Prop where
  calls : noSchedule c.calls
  log : c.log = log
  thrown : ∃ w e, c.workers = [w] ∧ w.pc = .deliver ∧ w.callback.isSome = true ∧
    w.ret = some (.error e)

/-- The only thread is one that `schedule_callback` started, or it has ended. -/
structure CallbackRun (c : Config σ ε ρ) : Prop where
  calls : noSchedule c.calls
  one : c.workers.length ≤ 1
  cb : ∀ w ∈ c.workers, w.callback.isSome = true

/-- The memory after the first `j` invocations of the task, when nothing else
writes to it. -/
def memAfter (func : Task σ ε ρ) (m : σ) : Nat → σ
  | 0 => m
  | j + 1 => (func (memAfter func m j)).2

/-- The outcome of invocation number `j + 1` of the task. -/
def outcomeAt (func : Task σ ε ρ) (m : σ) (j : Nat) : Except ε ρ :=
  (func (memAfter func m j)).1

/-- What the callback answers to an outcome; nothing if the task threw. -/
def verdict (cb : ρ → Bool) : Except ε ρ → Option Bool
  | .ok v => some (cb v)
  | .error _ => none

/-- Where a thread of `schedule_callback` with `repeat = true` can be when the
callback answers `true` to the first `n` results and `false` to the next. -/
def loopAt (n : Nat) (func : Task σ ε ρ) (m : σ) (log : List Event) (w : Worker σ ε ρ) : Prop :=
  match w.pc with
  | .sleep => invocations log ≤ n ∧ continues log = invocations log
  | .invoke => invocations log ≤ n ∧ continues log = invocations log
  | .deliver => invocations log ≤ n + 1 ∧ continues log + 1 = invocations log ∧
      w.ret = some (outcomeAt func m (invocations log - 1))
  | .check => 1 ≤ invocations log ∧ invocations log ≤ n + 1 ∧
      continues log + (if w.keep_running then 0 else 1) = invocations log ∧
      w.keep_running = decide (invocations log ≤ n)
  | _ => invocations log = n + 1 ∧ continues log = n

/-- A run of `schedule_callback` with `repeat = true` on a new Timer, with no
call of `invaildate`, once the thread has been started. -/
structure Loop (n : Nat) (cb : ρ → Bool) (func : Task σ ε ρ) (m : σ) (c : Config σ ε ρ) :
    Prop where
  calls : c.calls = []
  pc : c.pc = .idle
  alive : c.aborted = false
  try_ : c.try_to_invaild = false
  mem : c.memory = memAfter func m (invocations c.log)
  one : c.workers.length ≤ 1
  mtx : c.mtx = c.workers.any Worker.inCS
  at_ : ∀ w ∈ c.workers, w.callback = some cb ∧ w.func = func ∧ w.rep = true ∧
    loopAt n func m c.log w
  done : c.workers = [] → invocations c.log = n + 1 ∧ continues c.log = n
  flag : c.invaild = flagSet c.workers

/-- Number of actions the thread still takes before it ends. -/
def toEnd (n : Nat) (log : List Event) : List (Worker σ ε ρ) → Nat
  | [] => 0
  | w :: _ =>
    match w.pc with
    | .sleep => 4 * (n + 1 - invocations log) + 4
    | .invoke => 4 * (n + 1 - invocations log) + 3
    | .deliver => 4 * (n + 1 - invocations log) + 6
    | .check => 4 * (n + 1 - invocations log) + 5
    | .lock => 4
    | .setFlag => 3
    | .notify => 2
    | .unlock => 1

/-- The task the threads run is the one handed to `schedule`, and the memory
is what as many runs of it as the log has invocations make of the memory the
Timer started with: every logged invocation ran the task once, and nothing
else touched the memory. -/
structure Ran (func : Task σ ε ρ) (m : σ) (c : Config σ ε ρ) : Prop where
  mem : c.memory = memAfter func m (invocations c.log)
  bound : ∀ w ∈ c.workers, w.func = func
  kept : ∀ w ∈ c.workers, w.leftLoop = true ∨ w.pc = .check →
    w.ret = some (outcomeAt func m (invocations c.log - 1)) ∧ 1 ≤ invocations c.log

/-! ## Preservation of the invariants -/

theorem countP_set_same {α : Type} (p : α → Bool) (l : List α) (i : Nat) (w w' : α)
    (h : l[i]? = some w) (hp : p w' = p w) : (l.set i w').countP p = l.countP p := by
  induction l generalizing i with
  | nil => simp
  | cons x xs ih =>
    cases i with
    | zero =>
      simp at h
      subst h
      simp [List.countP_cons, hp]
    | succ n =>
      simp at h
      simp [List.countP_cons, ih n h]

theorem countP_set_enter {α : Type} (p : α → Bool) (l : List α) (i : Nat) (w w' : α)
    (h : l[i]? = some w) (hw : p w = false) (hp : p w' = true) :
    (l.set i w').countP p = l.countP p + 1 := by
  induction l generalizing i with
  | nil => simp at h
  | cons x xs ih =>
    cases i with
    | zero =>
      simp at h
      subst h
      simp [List.countP_cons, hp, hw]
    | succ n =>
      simp at h
      simp [List.countP_cons, ih n h]
      omega

theorem countP_eraseIdx_leave {α : Type} (p : α → Bool) (l : List α) (i : Nat) (w : α)
    (h : l[i]? = some w) (hw : p w = true) :
    (l.eraseIdx i).countP p + 1 = l.countP p := by
  induction l generalizing i with
  | nil => simp at h
  | cons x xs ih =>
    cases i with
    | zero =>
      simp at h
      subst h
      simp [List.countP_cons, hw]
    | succ n =>
      simp at h
      have := ih n h
      simp [List.countP_cons]
      omega

theorem sound_resume (calls : List (Call σ ε ρ)) (m : σ) (l : List Event) (x : List Exit) :
    Sound (resume calls m l x) := by
  constructor <;> simp [Timer.resume, ownerInCS]

theorem sound_ownerStep {c : Config σ ε ρ} (h : Sound c) : Sound (ownerStep c) := by
  obtain ⟨h1, h2, h3, h4, h5⟩ := h
  obtain ⟨inv, try_, mtx, woken, pc, calls, workers, mem, log, exits, ab⟩ := c
  simp only at h1 h2 h3 h4 h5
  cases pc <;> simp only [ownerStep, invaildate, schedule, schedule_callback, List.tail_cons]
  · -- idle
    rcases calls with _ | ⟨call, rest⟩
    · exact ⟨h1, h2, h3, h4, h5⟩
    · cases call <;> cases inv <;> constructor <;>
        simp_all [ownerInCS, List.countP_append, List.countP_cons, Worker.start, Worker.inCS]
  · -- testTry
    cases try_ <;> simp <;> constructor <;> simp_all [ownerInCS]
  · -- setTry
    constructor <;> simp_all [ownerInCS]
  · -- lock
    cases mtx <;> simp <;> constructor <;> simp_all [ownerInCS]
  · -- waitCheck
    cases inv <;> cases mtx <;> simp <;> constructor <;> simp_all [ownerInCS]
  · -- blocked
    cases woken <;> cases mtx <;> simp <;> constructor <;> simp_all [ownerInCS]
  · -- testFlag
    cases inv <;> simp <;> constructor <;> simp_all [ownerInCS]
  · -- clearTry
    constructor <;> simp_all [ownerInCS]
  · -- clearFlag
    constructor <;> simp_all [ownerInCS]
  · -- unlock
    cases mtx <;> constructor <;> simp_all [ownerInCS]

theorem sound_owner_out {c : Config σ ε ρ} (h : Sound c) {w : Worker σ ε ρ} {i : Nat}
    (hw : c.workers[i]? = some w) (hin : w.inCS = true) :
    ownerInCS c.pc = false ∧ c.mtx = true := by
  have hpos : 0 < c.workers.countP Worker.inCS :=
    List.countP_pos_iff.2 ⟨w, List.mem_iff_getElem?.2 ⟨i, hw⟩, hin⟩
  have h1 := h.mutex
  cases ho : ownerInCS c.pc <;> cases hm : c.mtx <;> rw [ho, hm] at h1 <;>
    simp only [Bool.toNat_true, Bool.toNat_false] at h1 <;> first | omega | exact ⟨rfl, rfl⟩

theorem sound_workerStep {c : Config σ ε ρ} (i : Nat) (h : Sound c) : Sound (workerStep i c) := by
  have hout := @sound_owner_out _ _ _ c h
  obtain ⟨h1, h2, h3, h4, h5⟩ := h
  unfold Timer.workerStep
  split
  · exact ⟨h1, h2, h3, h4, h5⟩
  · rename_i w hw
    split
    · -- sleep
      rename_i hpc
      refine ⟨?_, h2, h3, h4, h5⟩
      rw [← h1]
      simp only
      rw [countP_set_same _ _ _ w _ hw (by simp [Worker.inCS, hpc])]
    · -- invoke
      rename_i hpc
      refine ⟨?_, h2, h3, h4, h5⟩
      rw [← h1]
      simp only
      rw [countP_set_same _ _ _ w _ hw (by cases hcb : w.callback <;> simp [Worker.inCS, hpc])]
    · -- deliver
      rename_i hpc
      split
      · refine ⟨?_, h2, h3, h4, h5⟩
        rw [← h1]
        simp only
        rw [countP_set_same _ _ _ w _ hw (by simp [Worker.inCS, hpc])]
      · exact ⟨h1, h2, h3, h4, h5⟩
      · exact ⟨h1, h2, h3, h4, h5⟩
    · -- check
      rename_i hpc
      refine ⟨?_, h2, h3, h4, h5⟩
      rw [← h1]
      simp only
      rw [countP_set_same _ _ _ w _ hw (by split <;> simp [Worker.inCS, hpc])]
    · -- lock
      rename_i hpc
      split
      · exact ⟨h1, h2, h3, h4, h5⟩
      · rename_i hm
        have hc := countP_set_enter Worker.inCS c.workers i w { w with pc := .setFlag } hw
          (by simp [Worker.inCS, hpc]) (by simp [Worker.inCS])
        have hm' : c.mtx = false := by simpa using hm
        refine ⟨?_, h2, h3, h4, h5⟩
        simp only [hc]
        rw [hm'] at h1
        simp only [Bool.toNat_true, Bool.toNat_false] at h1 ⊢
        omega
    · -- setFlag
      rename_i hpc
      have hown := (hout hw (by simp [Worker.inCS, hpc])).1
      refine ⟨?_, h2, ?_, h4, ?_⟩
      · rw [← h1]
        simp only
        rw [countP_set_same _ _ _ w _ hw (by simp [Worker.inCS, hpc])]
      · intro _; rfl
      · intro hp; simp [show c.pc = .unlock from hp, ownerInCS] at hown
    · -- notify
      rename_i hpc
      refine ⟨?_, ?_, h3, h4, h5⟩
      · rw [← h1]
        simp only
        rw [countP_set_same _ _ _ w _ hw (by simp [Worker.inCS, hpc])]
      · intro hwk
        simp only [Bool.or_eq_true, beq_iff_eq] at hwk
        rcases hwk with hwk | hwk
        · exact h2 hwk
        · exact hwk
    · -- unlock
      rename_i hpc
      have hin : w.inCS = true := by simp [Worker.inCS, hpc]
      have hc := countP_eraseIdx_leave Worker.inCS c.workers i w hw hin
      obtain ⟨hown, hm⟩ := hout hw hin
      refine ⟨?_, h2, h3, h4, h5⟩
      rw [hown, hm] at h1
      simp only [hown, Bool.toNat_true, Bool.toNat_false] at h1 ⊢
      omega

theorem sound_step {c : Config σ ε ρ} (a : Actor) (h : Sound c) : Sound (step a c) := by
  unfold Timer.step
  split
  · exact h
  · cases a with
    | owner => exact sound_ownerStep h
    | worker i => exact sound_workerStep i h
    | spurious =>
      obtain ⟨h1, h2, h3, h4, h5⟩ := h
      refine ⟨h1, ?_, h3, h4, h5⟩
      intro hwk
      simp only [spuriousStep, Bool.or_eq_true, beq_iff_eq] at hwk
      rcases hwk with hwk | hwk
      · exact h2 hwk
      · exact hwk

theorem sound_exec {c : Config σ ε ρ} (s : List Actor) (h : Sound c) : Sound (exec s c) := by
  induction s generalizing c with
  | nil => exact h
  | cons a s ih => exact ih (sound_step a h)

theorem ownerStep_stutter {c : Config σ ε ρ} {n : Nat} (hlen : c.calls.length ≤ n)
    (hin : c.pc ≠ .idle → c.calls ≠ []) (h1 : (ownerStep c).calls.length = n)
    (h2 : (ownerStep c).pc = .idle) : ownerStep c = c := by
  obtain ⟨inv, try_, mtx, woken, pc, calls, workers, mem, log, exits, ab⟩ := c
  simp only at hlen hin
  cases pc <;> simp only [ownerStep, invaildate, schedule, schedule_callback, List.tail_cons] at h1 h2 ⊢
  · -- idle
    rcases calls with _ | ⟨call, rest⟩
    · rfl
    · exfalso
      cases call <;> cases inv <;> simp at h1 h2 hlen <;> omega
  · -- testTry
    exfalso
    rcases calls with _ | ⟨call, rest⟩
    · simp at hin
    · cases try_ <;> simp at h1 h2 hlen
      omega
  · simp at h2
  · cases mtx <;> simp at h2
  · cases inv <;> simp at h2
  · cases woken <;> cases mtx <;> simp at h2
  · cases inv <;> simp at h2
  · simp at h2
  · simp at h2
  · exfalso
    rcases calls with _ | ⟨call, rest⟩
    · simp at hin
    · simp at h1 hlen
      omega

theorem ownerStep_calls_le (c : Config σ ε ρ) :
    (ownerStep c).calls.length ≤ c.calls.length := by
  obtain ⟨inv, try_, mtx, woken, pc, calls, workers, mem, log, exits, ab⟩ := c
  cases pc <;> simp only [ownerStep, invaildate, schedule, schedule_callback, List.tail_cons]
  · rcases calls with _ | ⟨call, rest⟩
    · simp
    · cases call <;> cases inv <;> simp
  · cases try_ <;> simp
  · simp
  · cases mtx <;> simp
  · cases inv <;> simp
  · cases woken <;> cases mtx <;> simp
  · cases inv <;> simp
  · simp
  · simp
  · simp

theorem ownerStep_inside {c : Config σ ε ρ} (hin : c.pc ≠ .idle → c.calls ≠ []) :
    (ownerStep c).pc ≠ .idle → (ownerStep c).calls ≠ [] := by
  obtain ⟨inv, try_, mtx, woken, pc, calls, workers, mem, log, exits, ab⟩ := c
  simp only at hin
  cases pc <;> simp only [ownerStep, invaildate, schedule, schedule_callback, List.tail_cons]
  · rcases calls with _ | ⟨call, rest⟩
    · simp
    · cases call <;> cases inv <;> simp
  · cases try_ <;> simp <;> simpa using hin
  · simpa using hin
  · cases mtx <;> simpa using hin
  · cases inv <;> simpa using hin
  · cases woken <;> cases mtx <;> simpa using hin
  · cases inv <;> simpa using hin
  · simpa using hin
  · simpa using hin
  · simp

theorem phase_ownerStep {first : Call σ ε ρ} {rest : List (Call σ ε ρ)} {m : σ}
    (hf : first.isSchedule = true) {c : Config σ ε ρ} (hs : Sound c) (hab : c.aborted = false)
    (h : Phase first rest m c) : Phase first rest m (ownerStep c) := by
  rcases h with h | h | h
  · subst h
    right; left
    cases first <;> first | (simp [Call.isSchedule] at hf; done) | skip
    all_goals
      constructor <;> simp [init, resume, ownerStep, invaildate, schedule, schedule_callback, tryOn, flagSet,
        Worker.start, pastWait]
  · obtain ⟨c1, c2, c3, c4, c5, c6⟩ := h
    obtain ⟨s1, s2, s3, s4, s5⟩ := hs
    obtain ⟨inv, try_, mtx, woken, pc, calls, workers, mem, log, exits, ab⟩ := c
    simp only at c1 c2 c3 c4 c5 c6 s1 s2 s3 s4 s5 hab
    subst c1 c2 hab
    cases pc <;> simp only [ownerStep, invaildate, schedule, schedule_callback, List.tail_cons] <;>
      simp only [tryOn, pastWait, ownerInCS, Bool.toNat_true, Bool.toNat_false, reduceCtorEq,
        false_implies, true_implies, imp_false, Bool.false_eq_true, beq_self_eq_true,
        Bool.not_true, Bool.and_false, Bool.and_true, zero_add] at c4 c5 c6 s1 s2 s3 s4 s5
    · -- idle
      cases inv
      · right; left
        simp only [Bool.false_eq_true, if_false]
        exact ⟨rfl, rfl, c3, by simp [c4, tryOn], by simpa using c5, by simp [pastWait]⟩
      · right; right
        simp only [if_true]
        refine ⟨by simp, by simp, ?_⟩
        intro _ _
        refine ⟨rfl, c3, ?_, by simp, by simp⟩
        intro w hw
        rcases workers with _ | ⟨w0, ws⟩
        · simp at hw
        · rcases ws with _ | ⟨w1, ws⟩
          · simp at hw
            subst hw
            simp [flagSet] at c5
            rcases c5 with h | h <;> simp [Worker.leftLoop, h]
          · simp at c3
    · -- testTry
      subst c4
      right; left
      simp only [Bool.false_eq_true, if_false]
      exact ⟨rfl, rfl, c3, by simp [tryOn], by simpa using c5, by simp [pastWait]⟩
    · -- setTry
      right; left
      exact ⟨rfl, rfl, c3, by simp [tryOn], by simpa using c5, by simp [pastWait]⟩
    · -- lock
      right; left
      cases mtx
      · simp only [Bool.false_eq_true, if_false]
        exact ⟨rfl, rfl, c3, by simp [c4, tryOn], by simpa using c5, by simp [pastWait]⟩
      · simp only [if_true]
        exact ⟨rfl, rfl, c3, by simp [c4, tryOn], by simpa using c5, by simp [pastWait]⟩
    · -- waitCheck
      right; left
      have hz : workers.countP Worker.inCS = 0 := by
        cases mtx <;> simp only [Bool.toNat_true, Bool.toNat_false] at s1 <;> omega
      cases inv
      · simp only [Bool.false_eq_true, if_false]
        exact ⟨rfl, rfl, c3, by simp [c4, tryOn], by simpa using c5, by simp [pastWait]⟩
      · simp only [if_true]
        have hw : workers = [] := by
          rcases workers with _ | ⟨w0, ws⟩
          · rfl
          · exfalso
            simp [flagSet] at c5
            have : w0.inCS = true := by rcases c5 with h | h <;> simp [Worker.inCS, h]
            simp [List.countP_cons, this] at hz
        exact ⟨rfl, rfl, c3, by simp [c4, tryOn], by simpa using c5, fun _ => hw⟩
    · -- blocked
      right; left
      cases woken <;> cases mtx <;> simp only [Bool.and_true, Bool.and_false, Bool.not_true,
        Bool.not_false, Bool.false_and, Bool.true_and, Bool.false_eq_true, if_false, if_true] <;>
        exact ⟨rfl, rfl, c3, by simp [c4, tryOn], by simpa using c5, by simp [pastWait]⟩
    · -- testFlag
      right; left
      have hw := c6
      subst hw
      simp [flagSet] at c5
      subst c5
      exact ⟨rfl, rfl, c3, by simp [c4, tryOn], by simp [flagSet], fun _ => rfl⟩
    · -- clearTry
      right; left
      have hw := c6
      subst hw
      exact ⟨rfl, rfl, c3, by simp [tryOn], by simpa [flagSet] using c5, fun _ => rfl⟩
    · -- clearFlag
      right; left
      have hw := c6
      subst hw
      exact ⟨rfl, rfl, c3, by simp [c4, tryOn], by simp [flagSet], fun _ => rfl⟩
    · -- unlock
      right; right
      have hw := c6
      subst hw
      refine ⟨by simp, by simp, ?_⟩
      intro _ _
      have hwk : woken = false := by cases woken <;> simp at s2 ⊢
      subst hwk c4 c5
      exact ⟨rfl, by simp, by simp, by simp, fun _ => rfl⟩
  · right; right
    obtain ⟨l1, l2, l3⟩ := h
    refine ⟨le_trans (ownerStep_calls_le c) l1, ownerStep_inside l2, ?_⟩
    intro h1 h2
    have hst := ownerStep_stutter l1 l2 h1 h2
    rw [hst] at h1 h2 ⊢
    exact l3 h1 h2

theorem workerStep_frame (i : Nat) (c : Config σ ε ρ) :
    (workerStep i c).pc = c.pc ∧ (workerStep i c).calls = c.calls ∧
    (workerStep i c).exits = c.exits ∧
    (workerStep i c).try_to_invaild = c.try_to_invaild := by
  unfold Timer.workerStep
  split
  · simp
  · split <;> (try split) <;> simp

theorem workerStep_nil (i : Nat) {c : Config σ ε ρ} (h : c.workers = []) :
    workerStep i c = c := by
  unfold Timer.workerStep
  simp [h]

theorem workerStep_succ (i : Nat) {c : Config σ ε ρ} (h : c.workers.length ≤ 1) :
    workerStep (i + 1) c = c := by
  unfold Timer.workerStep
  have : c.workers[i + 1]? = none := by
    apply List.getElem?_eq_none
    omega
  simp [this]

theorem inCall_workerStep {rest : List (Call σ ε ρ)} {c : Config σ ε ρ} (hs : Sound c)
    (h : InCall rest c) (i : Nat) : InCall rest (workerStep i c) := by
  cases i with
  | succ i => rw [workerStep_succ i h.one]; exact h
  | zero =>
    obtain ⟨c1, c2, c3, c4, c5, c6⟩ := h
    have hout := @sound_owner_out _ _ _ c hs
    obtain ⟨inv, try_, mtx, woken, pc, calls, workers, mem, log, exits, ab⟩ := c
    simp only at c1 c2 c3 c4 c5 c6 hout
    rcases workers with _ | ⟨w, ws⟩
    · rw [workerStep_nil 0 rfl]; exact ⟨c1, c2, c3, c4, c5, c6⟩
    · rcases ws with _ | ⟨w1, ws⟩
      · obtain ⟨wpc, wi, wr, wcb, wf, wk, wret⟩ := w
        have hout' := @hout ⟨wpc, wi, wr, wcb, wf, wk, wret⟩ 0 rfl
        have hp : pastWait pc = false := by
          cases hpw : pastWait pc
          · rfl
          · simpa using c6 hpw
        cases wpc <;> simp only [Timer.workerStep, List.getElem?_cons_zero]
        · -- sleep
          exact ⟨c1, c2, by simp, c4, by simpa [flagSet] using c5, by simp [hp]⟩
        · -- invoke
          cases wcb <;>
            exact ⟨c1, c2, by simp, c4, by simpa [flagSet] using c5, by simp [hp]⟩
        · -- deliver
          split
          · exact ⟨c1, c2, by simp, c4, by simpa [flagSet] using c5, by simp [hp]⟩
          · exact ⟨c1, c2, c3, c4, c5, c6⟩
          · exact ⟨c1, c2, c3, c4, c5, c6⟩
        · -- check
          simp only [List.set_cons_zero]
          split <;>
            exact ⟨c1, c2, by simp, c4, by simpa [flagSet] using c5, by simp [hp]⟩
        · -- lock
          cases mtx
          · exact ⟨c1, c2, by simp, c4, by simpa [flagSet] using c5, by simp [hp]⟩
          · exact ⟨c1, c2, c3, c4, c5, c6⟩
        · -- setFlag
          have hown := (hout' (by simp [Worker.inCS])).1
          refine ⟨c1, c2, by simp, c4, ?_, by simp [hp]⟩
          cases pc <;> simp [flagSet, ownerInCS] at hown ⊢
        · -- notify
          exact ⟨c1, c2, by simp, c4, by simpa [flagSet] using c5, by simp [hp]⟩
        · -- unlock
          exact ⟨c1, c2, by simp, c4, by simpa [flagSet] using c5, by simp⟩
      · simp at c3

theorem returned_workerStep {rest : List (Call σ ε ρ)} {c : Config σ ε ρ}
    (h : Returned rest c) (i : Nat) : Returned rest (workerStep i c) := by
  cases i with
  | succ i => rw [workerStep_succ i h.one]; exact h
  | zero =>
    obtain ⟨r1, r2, r3, r4, r5⟩ := h
    obtain ⟨inv, try_, mtx, woken, pc, calls, workers, mem, log, exits, ab⟩ := c
    simp only at r1 r2 r3 r4 r5
    rcases workers with _ | ⟨w, ws⟩
    · rw [workerStep_nil 0 rfl]; exact ⟨r1, r2, r3, r4, r5⟩
    · have hne : exits ≠ [.handshake] := by
        intro he
        have := congrArg Config.workers (r5 he)
        simp [resume] at this
      have r4' : exits = [.immediate] := by
        rcases r4 with h | h
        · exact h
        · exact absurd h hne
      rcases ws with _ | ⟨w1, ws⟩
      · obtain ⟨wpc, wi, wr, wcb, wf, wk, wret⟩ := w
        have hl := r3 _ (List.mem_singleton.2 rfl)
        cases wpc <;> simp [Worker.leftLoop] at hl <;>
          simp only [Timer.workerStep, List.getElem?_cons_zero]
        · -- lock
          cases mtx
          · refine ⟨r1, by simp, ?_, Or.inl r4', ?_⟩
            · simp [Worker.leftLoop]
            · intro he; simp [r4'] at he
          · exact ⟨r1, r2, r3, r4, r5⟩
        · -- setFlag
          refine ⟨r1, by simp, ?_, Or.inl r4', ?_⟩
          · simp [Worker.leftLoop]
          · intro he; simp [r4'] at he
        · -- notify
          refine ⟨r1, by simp, ?_, Or.inl r4', ?_⟩
          · simp [Worker.leftLoop]
          · intro he; simp [r4'] at he
        · -- unlock
          refine ⟨r1, by simp, ?_, Or.inl r4', ?_⟩
          · simp
          · intro he; simp [r4'] at he
      · simp at r2

theorem late_workerStep {rest : List (Call σ ε ρ)} {c : Config σ ε ρ}
    (h : Late rest c) (i : Nat) : Late rest (workerStep i c) := by
  obtain ⟨hpc, hcalls, -, -⟩ := workerStep_frame i c
  obtain ⟨l1, l2, l3⟩ := h
  refine ⟨by rw [hcalls]; exact l1, by rw [hpc, hcalls]; exact l2, ?_⟩
  rw [hpc, hcalls]
  intro h1 h2
  exact returned_workerStep (l3 h1 h2) i

theorem phase_spuriousStep {first : Call σ ε ρ} {rest : List (Call σ ε ρ)} {m : σ}
    {c : Config σ ε ρ} (hs : Sound c) (h : Phase first rest m c) :
    Phase first rest m (spuriousStep c) := by
  rcases h with h | h | h
  · left; subst h; rfl
  · right; left
    obtain ⟨c1, c2, c3, c4, c5, c6⟩ := h
    exact ⟨c1, c2, c3, c4, c5, c6⟩
  · right; right
    obtain ⟨l1, l2, l3⟩ := h
    refine ⟨l1, l2, ?_⟩
    intro h1 h2
    have hpc : c.pc = .idle := h2
    have hw : c.woken = false := by
      cases hwk : c.woken
      · rfl
      · have := hs.woken hwk
        rw [hpc] at this
        cases this
    have : spuriousStep c = c := by
      obtain ⟨inv, try_, mtx, woken, pc, calls, workers, mem, log, exits, ab⟩ := c
      simp only at hpc hw
      subst hpc hw
      rfl
    rw [this]
    exact l3 h1 h2

theorem phase_step {first : Call σ ε ρ} {rest : List (Call σ ε ρ)} {m : σ}
    (hf : first.isSchedule = true) {c : Config σ ε ρ} (hs : Sound c)
    (h : Phase first rest m c) (a : Actor) : Phase first rest m (step a c) := by
  unfold Timer.step
  split
  · exact h
  · rename_i hab
    cases a with
    | owner => exact phase_ownerStep hf hs (by simpa using hab) h
    | worker i =>
      rcases h with h | h | h
      · left; subst h; rfl
      · right; left; exact inCall_workerStep hs h i
      · right; right; exact late_workerStep h i
    | spurious => exact phase_spuriousStep hs h

theorem phase_exec {first : Call σ ε ρ} {rest : List (Call σ ε ρ)} {m : σ}
    (hf : first.isSchedule = true) (s : List Actor) {c : Config σ ε ρ} (hs : Sound c)
    (h : Phase first rest m c) : Phase first rest m (exec s c) := by
  induction s generalizing c with
  | nil => exact h
  | cons a s ih => exact ih (sound_step a hs) (phase_step hf hs h a)

theorem phase_reach (first : Call σ ε ρ) (hf : first.isSchedule = true)
    (rest : List (Call σ ε ρ)) (m : σ) (s : List Actor) :
    Phase first rest m (exec s (init (first :: .invaildate :: rest) m)) :=
  phase_exec hf s (sound_resume _ _ _ _) (Or.inl rfl)

theorem exec_append (s t : List Actor) (c : Config σ ε ρ) :
    exec (s ++ t) c = exec t (exec s c) := by
  induction s generalizing c with
  | nil => rfl
  | cons a s ih => exact ih (step a c)

theorem invocations_append (l l' : List Event) :
    invocations (l ++ l') = invocations l + invocations l' := by
  induction l with
  | nil => simp [invocations]
  | cons e l ih => cases e <;> simp [invocations, ih] <;> omega

theorem continues_append (l l' : List Event) :
    continues (l ++ l') = continues l + continues l' := by
  induction l with
  | nil => simp [continues]
  | cons e l ih =>
    cases e with
    | consulted b => cases b <;> simp [continues, ih] <;> omega
    | _ => simp [continues, ih]

theorem ownerStep_log (c : Config σ ε ρ) : (ownerStep c).log = c.log := by
  obtain ⟨inv, try_, mtx, woken, pc, calls, workers, mem, log, exits, ab⟩ := c
  cases pc <;> simp only [ownerStep, invaildate, schedule, schedule_callback] <;>
    (try split) <;> (try split) <;> rfl

theorem step_calls_le (a : Actor) (c : Config σ ε ρ) :
    (step a c).calls.length ≤ c.calls.length := by
  unfold step
  split
  · exact le_refl _
  · cases a with
    | owner => exact ownerStep_calls_le c
    | worker i => simp only; rw [(workerStep_frame i c).2.1]
    | spurious => exact le_refl _

theorem step_log_of_left {c : Config σ ε ρ} (h : ∀ w ∈ c.workers, w.leftLoop = true)
    (a : Actor) : (step a c).log = c.log := by
  unfold step
  split
  · rfl
  · cases a with
    | owner => exact ownerStep_log c
    | spurious => rfl
    | worker i =>
      simp only
      unfold workerStep
      split
      · rfl
      · rename_i w hw
        have hl := h w (List.mem_iff_getElem?.2 ⟨i, hw⟩)
        split <;> rename_i hpc <;> simp [Worker.leftLoop, hpc] at hl <;> (try split) <;> rfl

theorem late_nil_returned {c : Config σ ε ρ} (h : Late ([] : List (Call σ ε ρ)) c) :
    Returned [] c := by
  have hc : c.calls = [] := List.length_eq_zero.1 (Nat.le_zero.1 h.len)
  have hpc : c.pc = .idle := by
    by_contra hne
    exact h.inside hne hc
  exact h.just (by simp [hc]) hpc

theorem returned_of_calls_nil (first : Call σ ε ρ) (hf : first.isSchedule = true) (m : σ)
    (s : List Actor) (h : (exec s (init [first, .invaildate] m)).calls.length = 0) :
    Returned [] (exec s (init [first, .invaildate] m)) := by
  rcases phase_reach first hf [] m s with hp | hp | hp
  · rw [hp] at h; simp [init, resume] at h
  · rw [hp.calls] at h; simp at h
  · exact late_nil_returned hp

theorem stuck_step {rest : List (Call σ ε ρ)} {log : List Event} {exits : List Exit}
    {c : Config σ ε ρ} (h : Stuck rest log exits c) (a : Actor) :
    Stuck rest log exits (step a c) := by
  unfold step
  split
  · exact h
  · cases a with
    | worker i => simp only; rw [workerStep_nil i h.workers]; exact h
    | spurious => obtain ⟨h1, h2, h3, h4, h5, h6, h7⟩ := h; exact ⟨h1, h2, h3, h4, h5, h6, h7⟩
    | owner =>
      obtain ⟨h1, h2, h3, h4, h5, h6, h7⟩ := h
      obtain ⟨inv, try_, mtx, woken, pc, calls, workers, mem, lg, ex, ab⟩ := c
      simp only at h1 h2 h3 h4 h5 h6 h7
      subst h1 h2 h3 h4 h5 h6
      cases pc <;> simp [pastWait] at h7 <;> simp only [ownerStep, invaildate, schedule, schedule_callback, List.tail_cons, tryOn]
      · exact ⟨rfl, rfl, rfl, rfl, rfl, rfl, rfl⟩
      · exact ⟨rfl, rfl, rfl, rfl, rfl, rfl, rfl⟩
      · exact ⟨rfl, rfl, rfl, rfl, rfl, rfl, rfl⟩
      · cases mtx <;> exact ⟨rfl, rfl, rfl, rfl, rfl, rfl, rfl⟩
      · exact ⟨rfl, rfl, rfl, rfl, rfl, rfl, rfl⟩
      · cases woken <;> cases mtx <;> exact ⟨rfl, rfl, rfl, rfl, rfl, rfl, rfl⟩

theorem stuck_exec {rest : List (Call σ ε ρ)} {log : List Event} {exits : List Exit}
    (s : List Actor) {c : Config σ ε ρ} (h : Stuck rest log exits c) :
    Stuck rest log exits (exec s c) := by
  induction s generalizing c with
  | nil => exact h
  | cons a s ih => exact ih (stuck_step h a)

theorem ownerStep_withHistory (l : List Event) (x : List Exit) (c : Config σ ε ρ) :
    ownerStep (withHistory l x c) = withHistory l x (ownerStep c) := by
  obtain ⟨inv, try_, mtx, woken, pc, calls, workers, mem, log, exits, ab⟩ := c
  cases pc <;> simp only [ownerStep, invaildate, schedule, schedule_callback, List.tail_cons, withHistory]
  · rcases calls with _ | ⟨call, rest⟩
    · rfl
    · cases call <;> cases inv <;> simp
  · cases try_ <;> simp
  · cases mtx <;> simp
  · cases inv <;> simp
  · cases woken <;> cases mtx <;> simp
  · cases inv <;> simp
  · simp

theorem workerStep_withHistory (l : List Event) (x : List Exit) (i : Nat) (c : Config σ ε ρ) :
    workerStep i (withHistory l x c) = withHistory l x (workerStep i c) := by
  unfold workerStep
  simp only [withHistory]
  split
  · rfl
  · split <;> (try split) <;> simp

theorem step_withHistory (l : List Event) (x : List Exit) (a : Actor) (c : Config σ ε ρ) :
    step a (withHistory l x c) = withHistory l x (step a c) := by
  unfold step
  by_cases hab : c.aborted = true
  · simp [withHistory, hab]
  · have : (withHistory l x c).aborted = c.aborted := rfl
    rw [this]
    simp only [hab, if_false]
    cases a with
    | owner => exact ownerStep_withHistory l x c
    | worker i => exact workerStep_withHistory l x i c
    | spurious => rfl

theorem exec_withHistory (l : List Event) (x : List Exit) (s : List Actor) (c : Config σ ε ρ) :
    exec s (withHistory l x c) = withHistory l x (exec s c) := by
  induction s generalizing c with
  | nil => rfl
  | cons a s ih => simp only [exec]; rw [step_withHistory, ih]

theorem resume_eq_withHistory (calls : List (Call σ ε ρ)) (m : σ) (l : List Event)
    (x : List Exit) : resume calls m l x = withHistory l x (init calls m) := by
  simp [resume, withHistory, init]

theorem returned_of_reach (first : Call σ ε ρ) (hf : first.isSchedule = true)
    (rest : List (Call σ ε ρ)) (m : σ) (s : List Actor)
    (hlen : (exec s (init (first :: .invaildate :: rest) m)).calls.length = rest.length)
    (hpc : (exec s (init (first :: .invaildate :: rest) m)).pc = .idle) :
    Returned rest (exec s (init (first :: .invaildate :: rest) m)) := by
  rcases phase_reach first hf rest m s with hp | hp | hp
  · rw [hp] at hlen; simp only [init, resume, List.length_cons] at hlen; omega
  · rw [hp.calls] at hlen; simp at hlen
  · exact hp.just hlen hpc

theorem inCall_of_reach (first : Call σ ε ρ) (hf : first.isSchedule = true)
    (rest : List (Call σ ε ρ)) (m : σ) (s : List Actor)
    (hlen : (exec s (init (first :: .invaildate :: rest) m)).calls.length = rest.length + 1) :
    InCall rest (exec s (init (first :: .invaildate :: rest) m)) := by
  rcases phase_reach first hf rest m s with hp | hp | hp
  · rw [hp] at hlen; simp only [init, resume, List.length_cons] at hlen; omega
  · exact hp
  · have := hp.len; omega

theorem ownerStep_noSchedule {c : Config σ ε ρ} (h : noSchedule c.calls) :
    noSchedule (ownerStep c).calls ∧ (ownerStep c).workers = c.workers ∧
    (ownerStep c).aborted = c.aborted := by
  obtain ⟨inv, try_, mtx, woken, pc, calls, workers, mem, log, exits, ab⟩ := c
  simp only [noSchedule] at h ⊢
  cases pc <;> simp only [ownerStep, invaildate, schedule, schedule_callback, List.tail_cons]
  · rcases calls with _ | ⟨call, rest⟩
    · exact ⟨h, by simp, by simp⟩
    · have h0 := h call (List.mem_cons_self _ _)
      have hr : ∀ x ∈ rest, x.isSchedule = false := fun x hx => h x (List.mem_cons_of_mem _ hx)
      cases call <;> simp [Call.isSchedule] at h0
      cases inv
      · exact ⟨h, by simp, by simp⟩
      · exact ⟨hr, by simp, by simp⟩
  · have hr : ∀ x ∈ calls.tail, x.isSchedule = false := fun x hx => h x (List.mem_of_mem_tail hx)
    cases try_
    · exact ⟨h, by simp, by simp⟩
    · exact ⟨hr, by simp, by simp⟩
  · exact ⟨h, by simp, by simp⟩
  · cases mtx <;> exact ⟨h, by simp, by simp⟩
  · cases inv <;> exact ⟨h, by simp, by simp⟩
  · cases woken <;> cases mtx <;> exact ⟨h, by simp, by simp⟩
  · cases inv <;> exact ⟨h, by simp, by simp⟩
  · exact ⟨h, by simp, by simp⟩
  · exact ⟨h, by simp, by simp⟩
  · have hr : ∀ x ∈ calls.tail, x.isSchedule = false := fun x hx => h x (List.mem_of_mem_tail hx)
    exact ⟨hr, by simp, by simp⟩

theorem plainRun_workerStep {rep : Bool} {c : Config σ ε ρ} (h : PlainRun rep c) (i : Nat) :
    PlainRun rep (workerStep i c) := by
  cases i with
  | succ i => rw [workerStep_succ i h.one]; exact h
  | zero =>
    obtain ⟨h1, h2, h3, h4⟩ := h
    obtain ⟨inv, try_, mtx, woken, pc, calls, workers, mem, log, exits, ab⟩ := c
    simp only at h1 h2 h3 h4
    rcases workers with _ | ⟨w, ws⟩
    · rw [workerStep_nil 0 rfl]; exact ⟨h1, h2, h3, h4⟩
    · rcases ws with _ | ⟨w1, ws⟩
      · obtain ⟨wpc, wi, wr, wcb, wf, wk, wret⟩ := w
        have hw := h4 _ (List.mem_singleton.2 rfl)
        simp only at hw
        obtain ⟨hw1, hw2, hw3⟩ := hw
        subst hw1 hw3
        cases wpc <;> simp only [workerStep, List.getElem?_cons_zero]
        · exact ⟨h1, h2, by simp, by simp⟩
        · exact ⟨h1, h2, by simp, by simp⟩
        · exact absurd rfl hw2
        · simp only [List.set_cons_zero]
          split <;> exact ⟨h1, h2, by simp, by simp⟩
        · cases mtx
          · exact ⟨h1, h2, by simp, by simp⟩
          · exact ⟨h1, h2, h3, h4⟩
        · exact ⟨h1, h2, by simp, by simp⟩
        · exact ⟨h1, h2, by simp, by simp⟩
        · exact ⟨h1, h2, by simp, by simp⟩
      · simp at h3

theorem plainRun_step {rep : Bool} {c : Config σ ε ρ} (h : PlainRun rep c) (a : Actor) :
    PlainRun rep (step a c) := by
  unfold step
  split
  · exact h
  · cases a with
    | owner =>
      obtain ⟨o1, o2, o3⟩ := ownerStep_noSchedule h.calls
      exact ⟨o1, by rw [o3]; exact h.alive, by rw [o2]; exact h.one, by rw [o2]; exact h.plain⟩
    | worker i => exact plainRun_workerStep h i
    | spurious => exact ⟨h.calls, h.alive, h.one, h.plain⟩

theorem step_init (interval : Nat) (rep : Bool) (func : Task σ ε ρ)
    (rest : List (Call σ ε ρ)) (m : σ) (a : Actor) :
    step a (init (.schedule interval rep func :: rest) m) = init (.schedule interval rep func :: rest) m
    ∨ step a (init (.schedule interval rep func :: rest) m)
      = { init rest m with workers := [Worker.start interval rep none func] } := by
  cases a with
  | owner => right; rfl
  | worker i => left; rfl
  | spurious => left; rfl

theorem plainRun_reach (interval : Nat) (rep : Bool) (func : Task σ ε ρ) (m : σ)
    (s : List Actor) :
    exec s (init [.schedule interval rep func, .invaildate] m)
      = init [.schedule interval rep func, .invaildate] m ∨
    PlainRun rep (exec s (init [.schedule interval rep func, .invaildate] m)) := by
  induction s using List.reverseRecOn with
  | nil => left; rfl
  | append_singleton s a ih =>
    rw [exec_append]
    simp only [exec]
    rcases ih with ih | ih
    · rw [ih]
      rcases step_init interval rep func [.invaildate] m a with h | h
      · left; exact h
      · right
        rw [h]
        refine ⟨?_, rfl, by simp, ?_⟩
        · intro call hc
          simp [init, resume] at hc
          subst hc
          rfl
        · intro w hw
          simp at hw
          subst hw
          simp [Worker.start]
    · right; exact plainRun_step ih a

theorem once_workerStep {c : Config σ ε ρ} (h : Once c) (i : Nat) :
    Once (workerStep i c) ∧ todo (workerStep i c).workers = todo c.workers - (if i = 0 then 1 else 0) := by
  cases i with
  | succ i => rw [workerStep_succ i h.run.one]; exact ⟨h, by simp⟩
  | zero =>
    refine ⟨⟨plainRun_workerStep h.run 0, ?_⟩, ?_⟩ <;>
    · obtain ⟨⟨h1, h2, h3, h4⟩, h5⟩ := h
      obtain ⟨inv, try_, mtx, woken, pc, calls, workers, mem, log, exits, ab⟩ := c
      simp only at h1 h2 h3 h4 h5
      rcases workers with _ | ⟨w, ws⟩
      · rw [workerStep_nil 0 rfl]
        first | exact h5 | rfl
      · rcases ws with _ | ⟨w1, ws⟩
        · obtain ⟨wpc, wi, wr, wcb, wf, wk, wret⟩ := w
          have hw := h4 _ (List.mem_singleton.2 rfl)
          simp only at hw
          obtain ⟨hw1, hw2, hw3⟩ := hw
          subst hw1 hw3
          cases wpc <;> simp only [workerStep, List.getElem?_cons_zero] <;>
            simp [todo, invocations_append, invocations, loopCondition] at h5 ⊢ <;>
            first
            | exact h5
            | (cases mtx <;> simp [todo] <;> exact h5)
        · simp at h3

theorem once_step {c : Config σ ε ρ} (h : Once c) (a : Actor) : Once (step a c) := by
  have hr := plainRun_step h.run a
  refine ⟨hr, ?_⟩
  unfold step
  split
  · exact h.count
  · cases a with
    | owner =>
      simp only
      rw [ownerStep_log, (ownerStep_noSchedule h.run.calls).2.1]
      exact h.count
    | worker i => exact (once_workerStep h i).1.count
    | spurious => exact h.count

theorem once_first (interval : Nat) (func : Task σ ε ρ) (m : σ) :
    Once (step .owner (init [.schedule interval false func, .invaildate] m)) := by
  refine ⟨⟨?_, rfl, by simp [step, ownerStep, invaildate, schedule, schedule_callback, init, resume], ?_⟩, ?_⟩
  · intro call hc
    simp [step, ownerStep, invaildate, schedule, schedule_callback, init, resume] at hc
    subst hc
    rfl
  · intro w hw
    simp [step, ownerStep, invaildate, schedule, schedule_callback, init, resume] at hw
    subst hw
    simp [Worker.start]
  · simp [step, ownerStep, invaildate, schedule, schedule_callback, init, resume, todo, Worker.start, invocations]

theorem once_reach (interval : Nat) (func : Task σ ε ρ) (m : σ) (s : List Actor) :
    exec s (init [.schedule interval false func, .invaildate] m)
      = init [.schedule interval false func, .invaildate] m ∨
    Once (exec s (init [.schedule interval false func, .invaildate] m)) := by
  induction s using List.reverseRecOn with
  | nil => left; rfl
  | append_singleton s a ih =>
    rw [exec_append]
    simp only [exec]
    rcases ih with ih | ih
    · rw [ih]
      cases a with
      | owner => right; exact once_first interval func m
      | worker i => left; rfl
      | spurious => left; rfl
    · right; exact once_step ih a

theorem todo_le (ws : List (Worker σ ε ρ)) : todo ws ≤ 2 := by
  rcases ws with _ | ⟨w, ws⟩
  · simp [todo]
  · simp only [todo]; split <;> omega

theorem once_worker_twice {c : Config σ ε ρ} (h : Once c) :
    invocations (exec [.worker 0, .worker 0] c).log = 1 := by
  have e1 : step (.worker 0) c = workerStep 0 c := by simp [step, h.run.alive]
  obtain ⟨h1, t1⟩ := once_workerStep h 0
  have e2 : step (.worker 0) (workerStep 0 c) = workerStep 0 (workerStep 0 c) := by
    simp [step, h1.run.alive]
  obtain ⟨h2, t2⟩ := once_workerStep h1 0
  simp only [exec, e1, e2]
  rw [h2.count]
  have := todo_le c.workers
  simp only [if_true] at t1 t2
  rw [if_pos (by omega)]

theorem after_workerStep {k : Nat} {c : Config σ ε ρ} (h : After k c) (i : Nat) :
    After k (workerStep i c) ∧
    toLeave (workerStep i c).workers = toLeave c.workers - (if i = 0 then 1 else 0) := by
  cases i with
  | succ i => rw [workerStep_succ i h.run.one]; exact ⟨h, by simp⟩
  | zero =>
    have hr := plainRun_workerStep h.run 0
    obtain ⟨⟨h1, h2, h3, h4⟩, h5, h6⟩ := h
    obtain ⟨inv, try_, mtx, woken, pc, calls, workers, mem, log, exits, ab⟩ := c
    simp only at h1 h2 h3 h4 h5 h6
    rcases workers with _ | ⟨w, ws⟩
    · rw [workerStep_nil 0 rfl] at hr ⊢
      exact ⟨⟨hr, h5, h6⟩, rfl⟩
    · rcases ws with _ | ⟨w1, ws⟩
      · obtain ⟨wpc, wi, wr, wcb, wf, wk, wret⟩ := w
        have hw := h4 _ (List.mem_singleton.2 rfl)
        have hh := h6 _ (List.mem_singleton.2 rfl)
        simp only at hw
        obtain ⟨hw1, hw2, hw3⟩ := hw
        subst hw1 hw3
        cases mtx <;> cases wpc <;>
          simp only [workerStep, List.getElem?_cons_zero, List.set_cons_zero] at hr ⊢ <;>
          simp only [Worker.leftLoop, List.mem_singleton, forall_eq, reduceCtorEq,
            false_implies, true_implies, imp_false, Bool.false_eq_true, not_true_eq_false,
            not_false_eq_true] at hh <;>
          refine ⟨⟨hr, ?_, ?_⟩, ?_⟩ <;>
          simp [due, toLeave, invocations_append, invocations, loopCondition, Worker.leftLoop,
            hh] at h5 ⊢ <;>
          exact h5
      · simp at h3

theorem ownerStep_waiting {c : Config σ ε ρ} (hinv : c.invaild = false)
    (hpc : c.pc = .lock ∨ c.pc = .waitCheck ∨ c.pc = .blocked) :
    (ownerStep c).try_to_invaild = c.try_to_invaild ∧ (ownerStep c).invaild = false ∧
    ((ownerStep c).pc = .lock ∨ (ownerStep c).pc = .waitCheck ∨ (ownerStep c).pc = .blocked) := by
  obtain ⟨inv, try_, mtx, woken, pc, calls, workers, mem, log, exits, ab⟩ := c
  simp only at hinv hpc
  subst hinv
  rcases hpc with h | h | h <;> subst h <;> simp only [ownerStep, invaildate, schedule, schedule_callback, List.tail_cons]
  · cases mtx <;> simp
  · simp
  · cases woken <;> cases mtx <;> simp

theorem step_alive {c : Config σ ε ρ} (h : c.aborted = false) :
    step .owner c = ownerStep c ∧ (∀ i, step (.worker i) c = workerStep i c) ∧
    step .spurious c = spuriousStep c := by
  simp [step, h]

theorem after_step {k : Nat} {c : Config σ ε ρ} (h : After k c) (a : Actor) :
    After k (step a c) := by
  have hr := plainRun_step h.run a
  obtain ⟨e1, e2, e3⟩ := step_alive h.run.alive
  cases a with
  | owner =>
    rw [e1] at hr ⊢
    obtain ⟨-, o2, -⟩ := ownerStep_noSchedule h.run.calls
    refine ⟨hr, by rw [ownerStep_log, o2]; exact h.count, ?_⟩
    rw [o2]
    intro w hw hl
    obtain ⟨t, i, p⟩ := h.hold w hw hl
    obtain ⟨t', i', p'⟩ := ownerStep_waiting i p
    exact ⟨by rw [t', t], i', p'⟩
  | worker i => rw [e2]; exact (after_workerStep h i).1
  | spurious => rw [e3] at hr ⊢; exact ⟨hr, h.count, h.hold⟩

theorem after_exec {k : Nat} (s : List Actor) {c : Config σ ε ρ} (h : After k c) :
    After k (exec s c) := by
  induction s generalizing c with
  | nil => exact h
  | cons a s ih => exact ih (after_step h a)

theorem toLeave_le (ws : List (Worker σ ε ρ)) : toLeave ws ≤ 3 := by
  rcases ws with _ | ⟨w, ws⟩
  · simp [toLeave]
  · simp only [toLeave]; split <;> omega

theorem due_le_toLeave (ws : List (Worker σ ε ρ)) : due ws ≤ toLeave ws := by
  rcases ws with _ | ⟨w, ws⟩
  · simp [toLeave, due]
  · obtain ⟨wpc, wi, wr, wcb, wf, wk, wret⟩ := w
    cases wpc <;> simp [toLeave, due]

theorem left_of_toLeave {rep : Bool} {c : Config σ ε ρ} (h : PlainRun rep c)
    (h0 : toLeave c.workers = 0) : ∀ w ∈ c.workers, w.leftLoop = true := by
  obtain ⟨-, -, h3, h4⟩ := h
  generalize c.workers = ws at h0 h3 h4
  rcases ws with _ | ⟨w, ws⟩
  · intro w hw; cases hw
  · rcases ws with _ | ⟨w1, ws⟩
    · intro w' hw'
      have hw := List.mem_singleton.1 hw'
      subst hw
      have hp := (h4 w' (List.mem_singleton.2 rfl)).2.1
      obtain ⟨wpc, wi, wr, wcb, wf, wk, wret⟩ := w'
      cases wpc <;> simp [toLeave] at h0 <;> simp [Worker.leftLoop] at hp ⊢
    · simp at h3

theorem after_worker_thrice {k : Nat} {c : Config σ ε ρ} (h : After k c) :
    toLeave (exec [.worker 0, .worker 0, .worker 0] c).workers = 0 := by
  have e1 : step (.worker 0) c = workerStep 0 c := by simp [step, h.run.alive]
  obtain ⟨h1, t1⟩ := after_workerStep h 0
  have e2 : step (.worker 0) (workerStep 0 c) = workerStep 0 (workerStep 0 c) := by
    simp [step, h1.run.alive]
  obtain ⟨h2, t2⟩ := after_workerStep h1 0
  have e3 : step (.worker 0) (workerStep 0 (workerStep 0 c))
      = workerStep 0 (workerStep 0 (workerStep 0 c)) := by
    simp [step, h2.run.alive]
  obtain ⟨h3, t3⟩ := after_workerStep h2 0
  simp only [exec, e1, e2, e3]
  have := toLeave_le c.workers
  simp only [if_true] at t1 t2 t3
  omega

theorem inCall_of_inside (first : Call σ ε ρ) (hf : first.isSchedule = true) (m : σ)
    (s : List Actor) (hpc : (exec s (init [first, .invaildate] m)).pc ≠ .idle) :
    InCall [] (exec s (init [first, .invaildate] m)) := by
  rcases phase_reach first hf [] m s with hp | hp | hp
  · rw [hp] at hpc; exact absurd rfl hpc
  · exact hp
  · exact absurd (late_nil_returned hp) (fun hr => by
      have hc : (exec s (init [first, .invaildate] m)).calls = [] := hr.calls
      exact hp.inside hpc hc)

theorem step_aborted (a : Actor) {c : Config σ ε ρ} (h : c.aborted = true) : step a c = c := by
  simp [step, h]

theorem failed_step {log : List Event} {c : Config σ ε ρ} (h : Failed log c) (a : Actor) :
    Failed log (step a c) ∧ (a = .worker 0 → (step a c).aborted = true) := by
  by_cases hab : c.aborted = true
  · rw [step_aborted a hab]
    exact ⟨h, fun _ => hab⟩
  · obtain ⟨e1, e2, e3⟩ := step_alive (c := c) (by simpa using hab)
    cases a with
    | owner =>
      rw [e1]
      obtain ⟨o1, o2, -⟩ := ownerStep_noSchedule h.calls
      refine ⟨⟨o1, by rw [ownerStep_log]; exact h.log, by rw [o2]; exact h.thrown⟩, ?_⟩
      intro ha; cases ha
    | spurious =>
      rw [e3]
      refine ⟨⟨h.calls, h.log, h.thrown⟩, ?_⟩
      intro ha; cases ha
    | worker i =>
      rw [e2]
      obtain ⟨h1, h2, w, e, hw, hpc, hcb, hret⟩ := h
      cases i with
      | succ i =>
        rw [workerStep_succ i (by rw [hw]; simp)]
        refine ⟨⟨h1, h2, w, e, hw, hpc, hcb, hret⟩, ?_⟩
        intro ha; cases ha
      | zero =>
        obtain ⟨inv, try_, mtx, woken, pc, calls, workers, mem, lg, exits, ab⟩ := c
        obtain ⟨wpc, wi, wr, wcb, wf, wk, wret⟩ := w
        simp only at h1 h2 hw hpc hcb hret
        subst hw hpc hret
        rcases wcb with _ | cb
        · simp at hcb
        · exact ⟨⟨h1, h2, _, e, rfl, rfl, rfl, rfl⟩, fun _ => rfl⟩

theorem failed_exec {log : List Event} (s : List Actor) {c : Config σ ε ρ}
    (h : Failed log c) : Failed log (exec s c) := by
  induction s generalizing c with
  | nil => exact h
  | cons a s ih => exact ih (failed_step h a).1

theorem callbackRun_step {c : Config σ ε ρ} (h : CallbackRun c) (a : Actor) :
    CallbackRun (step a c) := by
  by_cases hab : c.aborted = true
  · rw [step_aborted a hab]; exact h
  · obtain ⟨e1, e2, e3⟩ := step_alive (c := c) (by simpa using hab)
    cases a with
    | owner =>
      rw [e1]
      obtain ⟨o1, o2, -⟩ := ownerStep_noSchedule h.calls
      exact ⟨o1, by rw [o2]; exact h.one, by rw [o2]; exact h.cb⟩
    | spurious => rw [e3]; exact ⟨h.calls, h.one, h.cb⟩
    | worker i =>
      rw [e2]
      cases i with
      | succ i => rw [workerStep_succ i h.one]; exact h
      | zero =>
        obtain ⟨h1, h3, h4⟩ := h
        obtain ⟨inv, try_, mtx, woken, pc, calls, workers, mem, log, exits, ab⟩ := c
        simp only at h1 h3 h4
        rcases workers with _ | ⟨w, ws⟩
        · rw [workerStep_nil 0 rfl]; exact ⟨h1, h3, h4⟩
        · rcases ws with _ | ⟨w1, ws⟩
          · obtain ⟨wpc, wi, wr, wcb, wf, wk, wret⟩ := w
            have hw := h4 _ (List.mem_singleton.2 rfl)
            simp only at hw
            cases wpc <;> simp only [workerStep, List.getElem?_cons_zero, List.set_cons_zero] <;>
              (try split) <;>
              first
              | exact ⟨h1, h3, h4⟩
              | exact ⟨h1, by simp, by simp [hw]⟩
          · simp at h3

theorem callbackRun_reach (interval : Nat) (rep : Bool) (cb : ρ → Bool) (func : Task σ ε ρ)
    (m : σ) (s : List Actor) :
    exec s (init [.schedule_callback interval rep cb func, .invaildate] m)
      = init [.schedule_callback interval rep cb func, .invaildate] m ∨
    CallbackRun (exec s (init [.schedule_callback interval rep cb func, .invaildate] m)) := by
  induction s using List.reverseRecOn with
  | nil => left; rfl
  | append_singleton s a ih =>
    rw [exec_append]
    simp only [exec]
    rcases ih with ih | ih
    · rw [ih]
      cases a with
      | owner =>
        right
        refine ⟨?_, by simp [step, ownerStep, invaildate, schedule, schedule_callback, init, resume], ?_⟩
        · intro call hc
          simp [step, ownerStep, invaildate, schedule, schedule_callback, init, resume] at hc
          subst hc
          rfl
        · intro w hw
          simp [step, ownerStep, invaildate, schedule, schedule_callback, init, resume] at hw
          subst hw
          simp [Worker.start]
      | worker i => left; rfl
      | spurious => left; rfl
    · right; exact callbackRun_step ih a

theorem loop_workerStep {n : Nat} {cb : ρ → Bool} {func : Task σ ε ρ} {m : σ}
    (hcont : ∀ j < n, verdict cb (outcomeAt func m j) = some true)
    (hstop : verdict cb (outcomeAt func m n) = some false)
    {c : Config σ ε ρ} (h : Loop n cb func m c) :
    Loop n cb func m (workerStep 0 c) ∧
    toEnd n (workerStep 0 c).log (workerStep 0 c).workers = toEnd n c.log c.workers - 1 := by
  obtain ⟨h1, h2, h3, h4, h5, h6, h7, h8, h9, h10⟩ := h
  obtain ⟨inv, try_, mtx, woken, pc, calls, workers, mem, log, exits, ab⟩ := c
  simp only at h1 h2 h3 h4 h5 h6 h7 h8 h9 h10
  subst h1 h2 h3 h4 h5 h7 h10
  rcases workers with _ | ⟨w, ws⟩
  · rw [workerStep_nil 0 rfl]
    exact ⟨⟨rfl, rfl, rfl, rfl, rfl, h6, rfl, h8, h9, rfl⟩, rfl⟩
  · rcases ws with _ | ⟨w1, ws⟩
    · obtain ⟨wpc, wi, wr, wcb, wf, wk, wret⟩ := w
      have hw := h8 _ (List.mem_singleton.2 rfl)
      simp only at hw
      obtain ⟨hw1, hw2, hw3, hw4⟩ := hw
      subst hw1 hw2 hw3
      cases wpc <;> simp only [loopAt] at hw4 <;>
        simp only [workerStep, List.getElem?_cons_zero, List.set_cons_zero]
      · -- sleep
        refine ⟨⟨rfl, rfl, rfl, rfl, ?_, by simp, by simp [Worker.inCS], ?_, by simp, by rfl⟩, ?_⟩
        · simp [invocations_append, invocations]
        · simp [loopAt, invocations_append, invocations, continues_append, continues, hw4]
        · simp [toEnd, invocations_append, invocations]
      · -- invoke
        obtain ⟨a1, a2⟩ := hw4
        refine ⟨⟨rfl, rfl, rfl, rfl, ?_, by simp, by simp [Worker.inCS], ?_, by simp, by rfl⟩, ?_⟩
        · simp [invocations_append, invocations, memAfter]
        · simp [loopAt, invocations_append, invocations, continues_append, continues, a2,
            outcomeAt]
          omega
        · simp [toEnd, invocations_append, invocations]
          omega
      · -- deliver
        obtain ⟨a1, a2, a3⟩ := hw4
        subst a3
        have hpos : 1 ≤ invocations log := by omega
        rcases Nat.lt_or_ge (invocations log - 1) n with hlt | hge
        · have hv := hcont _ hlt
          cases ho : outcomeAt wf m (invocations log - 1) with
          | error e => rw [ho] at hv; simp [verdict] at hv
          | ok v =>
            rw [ho] at hv
            simp only [verdict, Option.some.injEq] at hv
            simp only [hv]
            refine ⟨⟨rfl, rfl, rfl, rfl, ?_, by simp, by simp [Worker.inCS], ?_, by simp, by rfl⟩, ?_⟩
            · simp [invocations_append, invocations]
            · simp [loopAt, invocations_append, invocations, continues_append, continues]
              omega
            · simp [toEnd, invocations_append, invocations]
        · have heq : invocations log - 1 = n := by omega
          have hv := hstop
          rw [← heq] at hv
          cases ho : outcomeAt wf m (invocations log - 1) with
          | error e => rw [ho] at hv; simp [verdict] at hv
          | ok v =>
            rw [ho] at hv
            simp only [verdict, Option.some.injEq] at hv
            simp only [hv]
            refine ⟨⟨rfl, rfl, rfl, rfl, ?_, by simp, by simp [Worker.inCS], ?_, by simp, by rfl⟩, ?_⟩
            · simp [invocations_append, invocations]
            · simp [loopAt, invocations_append, invocations, continues_append, continues]
              omega
            · simp [toEnd, invocations_append, invocations]
      · -- check
        obtain ⟨a0, a1, a2, a3⟩ := hw4
        cases wk
        · have hn : ¬ invocations log ≤ n := by simpa using a3.symm
          simp only [loopCondition, Bool.not_false, Bool.true_and, Bool.false_and,
            Bool.false_eq_true, if_false]
          simp only [Bool.false_eq_true, if_false] at a2
          refine ⟨⟨rfl, rfl, rfl, rfl, rfl, by simp, by simp [Worker.inCS], ?_, by simp, by rfl⟩, ?_⟩
          · simp [loopAt]
            omega
          · simp [toEnd]
            omega
        · have hn : invocations log ≤ n := by simpa using a3.symm
          simp only [loopCondition, Bool.not_false, Bool.true_and, Bool.and_self, if_true]
          simp only [if_true, Nat.add_zero] at a2
          refine ⟨⟨rfl, rfl, rfl, rfl, rfl, by simp, by simp [Worker.inCS], ?_, by simp, by rfl⟩, ?_⟩
          · simp [loopAt]
            omega
          · simp [toEnd]
      · -- lock
        simp only [List.any_cons, List.any_nil, Worker.inCS, Bool.or_false, Bool.false_eq_true,
          if_false]
        refine ⟨⟨rfl, rfl, rfl, rfl, rfl, by simp, by simp [Worker.inCS], ?_, by simp, by rfl⟩, ?_⟩
        · simpa [loopAt] using hw4
        · simp [toEnd]
      · -- setFlag
        refine ⟨⟨rfl, rfl, rfl, rfl, rfl, by simp, by simp [Worker.inCS], ?_, by simp, by rfl⟩, ?_⟩
        · simpa [loopAt] using hw4
        · simp [toEnd]
      · -- notify
        refine ⟨⟨rfl, rfl, rfl, rfl, rfl, by simp, by simp [Worker.inCS], ?_, by simp, by rfl⟩, ?_⟩
        · simpa [loopAt] using hw4
        · simp [toEnd]
      · -- unlock
        refine ⟨⟨rfl, rfl, rfl, rfl, rfl, by simp, by simp, by simp, ?_, by rfl⟩, ?_⟩
        · intro _
          simpa using hw4
        · simp [toEnd]
    · simp at h6

theorem loop_step {n : Nat} {cb : ρ → Bool} {func : Task σ ε ρ} {m : σ}
    (hcont : ∀ j < n, verdict cb (outcomeAt func m j) = some true)
    (hstop : verdict cb (outcomeAt func m n) = some false)
    {c : Config σ ε ρ} (h : Loop n cb func m c) (a : Actor) :
    Loop n cb func m (step a c) := by
  obtain ⟨e1, e2, e3⟩ := step_alive h.alive
  cases a with
  | owner =>
    rw [e1]
    have : ownerStep c = c := by
      obtain ⟨h1, h2, -⟩ := h
      obtain ⟨inv, try_, mtx, woken, pc, calls, workers, mem, log, exits, ab⟩ := c
      simp only at h1 h2
      subst h1 h2
      rfl
    rw [this]; exact h
  | worker i =>
    rw [e2]
    cases i with
    | zero => exact (loop_workerStep hcont hstop h).1
    | succ i => rw [workerStep_succ i h.one]; exact h
  | spurious =>
    rw [e3]
    obtain ⟨h1, h2, h3, h4, h5, h6, h7, h8, h9, h10⟩ := h
    exact ⟨h1, h2, h3, h4, h5, h6, h7, h8, h9, h10⟩

theorem loop_first (n : Nat) (interval : Nat) (cb : ρ → Bool) (func : Task σ ε ρ) (m : σ) :
    Loop n cb func m (step .owner (init [.schedule_callback interval true cb func] m)) := by
  refine ⟨rfl, rfl, rfl, rfl, rfl, by simp [step, ownerStep, invaildate, schedule, schedule_callback, init, resume], rfl, ?_, ?_, rfl⟩
  · intro w hw
    simp [step, ownerStep, invaildate, schedule, schedule_callback, init, resume] at hw
    subst hw
    simp [Worker.start, loopAt, step, ownerStep, invaildate, schedule, schedule_callback, init, resume, invocations, continues]
  · intro hw
    simp [step, ownerStep, invaildate, schedule, schedule_callback, init, resume] at hw

theorem loop_reach {n : Nat} {cb : ρ → Bool} {func : Task σ ε ρ} {m : σ}
    (hcont : ∀ j < n, verdict cb (outcomeAt func m j) = some true)
    (hstop : verdict cb (outcomeAt func m n) = some false) (interval : Nat) (s : List Actor) :
    exec s (init [.schedule_callback interval true cb func] m)
      = init [.schedule_callback interval true cb func] m ∨
    Loop n cb func m (exec s (init [.schedule_callback interval true cb func] m)) := by
  induction s using List.reverseRecOn with
  | nil => left; rfl
  | append_singleton s a ih =>
    rw [exec_append]
    simp only [exec]
    rcases ih with ih | ih
    · rw [ih]
      cases a with
      | owner => right; exact loop_first n interval cb func m
      | worker i => left; rfl
      | spurious => left; rfl
    · right; exact loop_step hcont hstop ih a

theorem loop_bounds {n : Nat} {cb : ρ → Bool} {func : Task σ ε ρ} {m : σ}
    {c : Config σ ε ρ} (h : Loop n cb func m c) :
    invocations c.log ≤ n + 1 ∧ continues c.log ≤ n ∧
    continues c.log ≤ invocations c.log ∧ invocations c.log ≤ continues c.log + 1 ∧
    toEnd n c.log c.workers ≤ 4 * n + 8 ∧
    ((∀ w ∈ c.workers, w.leftLoop = true) → invocations c.log = n + 1 ∧ continues c.log = n) ∧
    (toEnd n c.log c.workers = 0 → c.workers = []) := by
  obtain ⟨h1, h2, h3, h4, h5, h6, h7, h8, h9, h10⟩ := h
  generalize c.workers = workers at h6 h8 h9
  generalize c.log = log at h8 h9
  rcases workers with _ | ⟨w, ws⟩
  · obtain ⟨a1, a2⟩ := h9 rfl
    simp [toEnd]
    omega
  · obtain ⟨wpc, wi, wr, wcb, wf, wk, wret⟩ := w
    have hw := (h8 _ (List.mem_cons_self _ _)).2.2.2
    cases wpc <;> simp only [loopAt] at hw
    · obtain ⟨a1, a2⟩ := hw
      simp [toEnd, Worker.leftLoop]; omega
    · obtain ⟨a1, a2⟩ := hw
      simp [toEnd, Worker.leftLoop]; omega
    · obtain ⟨a1, a2, -⟩ := hw
      simp [toEnd, Worker.leftLoop]; omega
    · obtain ⟨a0, a1, a2, a3⟩ := hw
      cases wk
      · have hn : ¬ invocations log ≤ n := by simpa using a3.symm
        simp only [Bool.false_eq_true, if_false] at a2
        simp [toEnd, Worker.leftLoop]; omega
      · have hn : invocations log ≤ n := by simpa using a3.symm
        simp only [if_true, Nat.add_zero] at a2
        simp [toEnd, Worker.leftLoop]; omega
    · obtain ⟨a1, a2⟩ := hw
      simp [toEnd, Worker.leftLoop]; omega
    · obtain ⟨a1, a2⟩ := hw
      simp [toEnd, Worker.leftLoop]; omega
    · obtain ⟨a1, a2⟩ := hw
      simp [toEnd, Worker.leftLoop]; omega
    · obtain ⟨a1, a2⟩ := hw
      simp [toEnd, Worker.leftLoop]; omega

theorem loop_run {n : Nat} {cb : ρ → Bool} {func : Task σ ε ρ} {m : σ}
    (hcont : ∀ j < n, verdict cb (outcomeAt func m j) = some true)
    (hstop : verdict cb (outcomeAt func m n) = some false) (k : Nat)
    {c : Config σ ε ρ} (h : Loop n cb func m c) :
    toEnd n (exec (List.replicate k (.worker 0)) c).log
        (exec (List.replicate k (.worker 0)) c).workers
      = toEnd n c.log c.workers - k := by
  induction k generalizing c with
  | zero => rfl
  | succ k ih =>
    simp only [List.replicate_succ, exec]
    rw [(step_alive h.alive).2.1 0, ih (loop_workerStep hcont hstop h).1,
      (loop_workerStep hcont hstop h).2]
    omega

theorem ran_workerStep {rep : Bool} {func : Task σ ε ρ} {m : σ} {c : Config σ ε ρ}
    (hp : PlainRun rep c) (h : Ran func m c) (i : Nat) : Ran func m (workerStep i c) := by
  cases i with
  | succ i => rw [workerStep_succ i hp.one]; exact h
  | zero =>
    obtain ⟨h1, h2, h3, h4⟩ := hp
    obtain ⟨r1, r2, r3⟩ := h
    obtain ⟨inv, try_, mtx, woken, pc, calls, workers, mem, log, exits, ab⟩ := c
    simp only at h1 h2 h3 h4 r1 r2 r3
    rcases workers with _ | ⟨w, ws⟩
    · rw [workerStep_nil 0 rfl]; exact ⟨r1, r2, r3⟩
    · rcases ws with _ | ⟨w1, ws⟩
      · obtain ⟨wpc, wi, wr, wcb, wf, wk, wret⟩ := w
        have hw := h4 _ (List.mem_singleton.2 rfl)
        have hf := r2 _ (List.mem_singleton.2 rfl)
        have hk := r3 _ (List.mem_singleton.2 rfl)
        simp only at hw hf hk
        obtain ⟨hw1, hw2, hw3⟩ := hw
        subst hw1 hw3 hf r1
        cases mtx <;> cases wpc <;>
          simp only [workerStep, List.getElem?_cons_zero, List.set_cons_zero] <;>
          simp only [Worker.leftLoop, reduceCtorEq, or_self, or_false, or_true, false_or,
            true_or, false_implies, true_implies, Bool.false_eq_true] at hk <;>
          refine ⟨?_, ?_, ?_⟩ <;>
          simp [invocations_append, invocations, memAfter, outcomeAt, Worker.leftLoop,
            loopCondition] <;>
          first
          | exact hk
          | (intro _; exact hk)
      · simp at h3

theorem ran_step {rep : Bool} {func : Task σ ε ρ} {m : σ} {c : Config σ ε ρ}
    (hp : PlainRun rep c) (h : Ran func m c) (a : Actor) : Ran func m (step a c) := by
  obtain ⟨e1, e2, e3⟩ := step_alive hp.alive
  cases a with
  | owner =>
    rw [e1]
    obtain ⟨-, o2, -⟩ := ownerStep_noSchedule hp.calls
    have ol := ownerStep_log c
    have om : (ownerStep c).memory = c.memory := by
      obtain ⟨inv, try_, mtx, woken, pc, calls, workers, mem, log, exits, ab⟩ := c
      cases pc <;> simp only [ownerStep, invaildate, schedule, schedule_callback] <;>
        (try split) <;> (try split) <;> rfl
    exact ⟨by rw [om, ol]; exact h.mem, by rw [o2]; exact h.bound,
      by rw [o2, ol]; exact h.kept⟩
  | worker i => rw [e2]; exact ran_workerStep hp h i
  | spurious => rw [e3]; exact ⟨h.mem, h.bound, h.kept⟩

theorem ran_reach (interval : Nat) (rep : Bool) (func : Task σ ε ρ) (m : σ)
    (s : List Actor) :
    Ran func m (exec s (init [.schedule interval rep func, .invaildate] m)) := by
  induction s using List.reverseRecOn with
  | nil =>
    refine ⟨rfl, ?_, ?_⟩ <;> intro w hw <;> simp [exec, init, resume] at hw
  | append_singleton s a ih =>
    rw [exec_append]
    simp only [exec]
    rcases plainRun_reach interval rep func m s with h | h
    · rw [h]
      rcases step_init interval rep func [.invaildate] m a with h' | h'
      · rw [h', ← h]; exact ih
      · rw [h']
        refine ⟨rfl, ?_, ?_⟩
        · intro w hw
          simp at hw
          subst hw
          rfl
        · intro w hw
          simp at hw
          subst hw
          simp [Worker.start, Worker.leftLoop]
    · exact ran_step h ih a

theorem time_unit_of_lt {interval : Nat} (h : interval < 2 ^ 63) :
    time_unit interval = (interval : Int) := by
  have h64 : interval % 2 ^ 64 = interval := Nat.mod_eq_of_lt (by omega)
  unfold time_unit
  rw [h64, if_pos h]

theorem time_unit_neg {interval : Nat} (h1 : 2 ^ 63 ≤ interval) (h2 : interval < 2 ^ 64) :
    time_unit interval < 0 := by
  have h64 : interval % 2 ^ 64 = interval := Nat.mod_eq_of_lt h2
  have hnot : ¬ interval < 2 ^ 63 := by omega
  unfold time_unit
  rw [h64, if_neg hnot]
  omega

theorem wait_sync_log (interval : Nat) (func : Task σ ε ρ) (c : Config σ ε ρ) :
    (wait_sync interval func c).1 = (func c.memory).1 ∧
    (wait_sync interval func c).2 =
      { c with memory := (func c.memory).2,
               log := c.log ++ [.slept (time_unit interval), .invoked] } := by
  refine ⟨rfl, ?_⟩
  simp [wait_sync]

/-! ## The properties of the specification -/

/-- C1: a single `schedule` with `repeat = false` on a new Timer, followed by
`invaildate`, for every interval, task and memory. In every interleaving the
task has been invoked at most once; once the owner and, twice, the thread have
been given the chance to act, it has been invoked exactly once, whatever came
before; when `invaildate` has returned it has been invoked exactly once; and
with `repeat = false` the condition of the do-while is false whether
`try_to_invaild` is set or not. The invocations are runs of the task that was
handed to `schedule`: in every interleaving the memory is what as many runs of
`func` as the log has invocations make of the memory at the start, after the
three actions it is the memory left by one run of `func`, and the future of
the thread holds the outcome of that run. -/
theorem schedule_once_invokes_exactly_once (interval : Nat) (func : Task σ ε ρ) (m : σ)
    (s : List Actor) :
    invocations (exec s (init [.schedule interval false func, .invaildate] m)).log ≤ 1 ∧
    invocations (exec (s ++ [.owner, .worker 0, .worker 0])
      (init [.schedule interval false func, .invaildate] m)).log = 1 ∧
    (0 < (exec s (init [.schedule interval false func, .invaildate] m)).calls.length ∨
     invocations (exec s (init [.schedule interval false func, .invaildate] m)).log = 1) ∧
    (∀ (requested : Bool) (w : Worker σ ε ρ),
      loopCondition requested { w with rep := false } = false) ∧
    (exec s (init [.schedule interval false func, .invaildate] m)).memory
      = memAfter func m
          (invocations (exec s (init [.schedule interval false func, .invaildate] m)).log) ∧
    (exec (s ++ [.owner, .worker 0, .worker 0])
      (init [.schedule interval false func, .invaildate] m)).memory = (func m).2 ∧
    (∀ w ∈ (exec (s ++ [.owner, .worker 0, .worker 0])
        (init [.schedule interval false func, .invaildate] m)).workers,
      w.func = func ∧ w.ret = some (func m).1) := by
  have hone : invocations (exec (s ++ [.owner, .worker 0, .worker 0])
      (init [.schedule interval false func, .invaildate] m)).log = 1 := by
    have hown : Once (exec (s ++ [.owner])
        (init [.schedule interval false func, .invaildate] m)) := by
      rw [exec_append]
      simp only [exec]
      rcases once_reach interval func m s with h | h
      · rw [h]; exact once_first interval func m
      · exact once_step h .owner
    have := once_worker_twice hown
    rw [← exec_append] at this
    simpa using this
  refine ⟨?_, ?_, ?_, ?_, (ran_reach interval false func m s).mem, ?_, ?_⟩
  · rcases once_reach interval func m s with h | h
    · rw [h]; simp [init, resume, invocations]
    · rw [h.count]; split <;> omega
  · have hown : Once (exec (s ++ [.owner])
        (init [.schedule interval false func, .invaildate] m)) := by
      rw [exec_append]
      simp only [exec]
      rcases once_reach interval func m s with h | h
      · rw [h]; exact once_first interval func m
      · exact once_step h .owner
    have := once_worker_twice hown
    rw [← exec_append] at this
    simpa using this
  · by_cases hc : (exec s (init [.schedule interval false func, .invaildate] m)).calls.length = 0
    · right
      have hr := returned_of_calls_nil (.schedule interval false func) rfl m s hc
      rcases once_reach interval func m s with h | h
      · rw [h] at hc; simp [init, resume] at hc
      · rw [h.count, if_pos]
        have hl := hr.left
        generalize (exec s (init [.schedule interval false func, .invaildate] m)).workers = ws at hl
        rcases ws with _ | ⟨w, ws⟩
        · rfl
        · have := hl w (List.mem_cons_self _ _)
          simp only [todo]
          simp only [Worker.leftLoop] at this
          split <;> simp_all
    · left; omega
  · intro requested w
    cases hcb : w.callback <;> simp [loopCondition, hcb]
  · rw [(ran_reach interval false func m _).mem, hone]
    rfl
  · intro w hw
    have hr := ran_reach interval false func m (s ++ [.owner, .worker 0, .worker 0])
    refine ⟨hr.bound w hw, ?_⟩
    rcases once_reach interval func m (s ++ [.owner, .worker 0, .worker 0]) with h | h
    · rw [h] at hw; simp [init, resume] at hw
    · have hcount := h.count
      rw [hone] at hcount
      have hplain := (h.run.plain w hw).2.1
      have hone' := h.run.one
      have hk := hr.kept w hw
      rw [hone] at hk
      generalize (exec (s ++ [.owner, .worker 0, .worker 0])
        (init [.schedule interval false func, .invaildate] m)).workers = ws
        at hw hcount hone'
      rcases ws with _ | ⟨w0, ws⟩
      · cases hw
      · rcases ws with _ | ⟨w1, ws⟩
        · have hw0 := List.mem_singleton.1 hw
          subst hw0
          have hpos : w.leftLoop = true ∨ w.pc = .check := by
            obtain ⟨wpc, wi, wr, wcb, wf, wk, wret⟩ := w
            cases wpc <;> simp [todo, Worker.leftLoop] at hcount hplain ⊢
          exact (hk hpos).1
        · simp at hone'

/-- C2: a single `schedule` with `repeat = true` on a new Timer, followed by
`invaildate`. In every interleaving in which `invaildate` has returned, every
background thread that is still live has left its do-while loop, and whatever
the threads do afterwards adds no invocation of the task. -/
theorem no_invocation_after_invaildate_returns (interval : Nat) (func : Task σ ε ρ) (m : σ)
    (s1 s2 : List Actor)
    (hret : (exec s1 (init [.schedule interval true func, .invaildate] m)).calls.length = 0) :
    (∀ w ∈ (exec s1 (init [.schedule interval true func, .invaildate] m)).workers,
        w.leftLoop = true) ∧
    invocations (exec s2 (exec s1 (init [.schedule interval true func, .invaildate] m))).log
      = invocations (exec s1 (init [.schedule interval true func, .invaildate] m)).log := by
  have hf : (Call.schedule interval true func).isSchedule = true := rfl
  refine ⟨(returned_of_calls_nil _ hf m s1 hret).left, ?_⟩
  induction s2 generalizing s1 with
  | nil => rfl
  | cons a s2 ih =>
    have hl := (returned_of_calls_nil _ hf m s1 hret).left
    have hstep : step a (exec s1 (init [.schedule interval true func, .invaildate] m))
        = exec (s1 ++ [a]) (init [.schedule interval true func, .invaildate] m) := by
      rw [exec_append]; rfl
    have hret' : (exec (s1 ++ [a])
        (init [.schedule interval true func, .invaildate] m)).calls.length = 0 := by
      rw [← hstep]
      have := step_calls_le a (exec s1 (init [.schedule interval true func, .invaildate] m))
      omega
    have := ih (s1 ++ [a]) hret'
    simp only [exec]
    rw [hstep, this, ← hstep, step_log_of_left hl a]

theorem no_invocation_after_invaildate_returns_witness :
    (exec [.owner, .worker 0, .worker 0, .worker 0, .owner, .owner, .owner, .worker 0,
           .worker 0, .worker 0, .worker 0, .worker 0, .worker 0, .worker 0, .owner, .owner,
           .owner, .owner, .owner, .owner]
       (init [.schedule 2000 true print, .invaildate] 0)).calls.length = 0 ∧
    invocations (exec [.worker 0, .owner, .spurious]
      (exec [.owner, .worker 0, .worker 0, .worker 0, .owner, .owner, .owner, .worker 0,
           .worker 0, .worker 0, .worker 0, .worker 0, .worker 0, .worker 0, .owner, .owner,
           .owner, .owner, .owner, .owner]
       (init [.schedule 2000 true print, .invaildate] 0))).log = 2 :=
  ⟨by decide, (no_invocation_after_invaildate_returns 2000 print 0
      [.owner, .worker 0, .worker 0, .worker 0, .owner, .owner, .owner, .worker 0,
           .worker 0, .worker 0, .worker 0, .worker 0, .worker 0, .worker 0, .owner, .owner,
           .owner, .owner, .owner, .owner] [.worker 0, .owner, .spurious] (by decide)).2.trans
      (by decide)⟩

/-- C3: whenever `invaildate` has taken its blocking path and is at its last
action (the wait has ended because a background thread stored `invaild = true`
and the two stores of lines 71 and 73 are done), its return leaves both flags
false, which is the state the constructor produces. This holds for every
sequence of calls on a new Timer and every interleaving. -/
theorem invaildate_handshake_restores_flags (calls : List (Call σ ε ρ)) (m : σ)
    (s : List Actor) (hpc : (exec s (init calls m)).pc = .unlock)
    (hab : (exec s (init calls m)).aborted = false) :
    (step .owner (exec s (init calls m))).pc = .idle ∧
    (step .owner (exec s (init calls m))).exits
      = (exec s (init calls m)).exits ++ [.handshake] ∧
    (step .owner (exec s (init calls m))).invaild = false ∧
    (step .owner (exec s (init calls m))).try_to_invaild = false ∧
    (step .owner (exec s (init calls m))).invaild = (init calls m).invaild ∧
    (step .owner (exec s (init calls m))).try_to_invaild = (init calls m).try_to_invaild := by
  have hs : Sound (exec s (init calls m)) := sound_exec s (sound_resume _ _ _ _)
  have hu := hs.unlock hpc
  generalize exec s (init calls m) = c at hpc hab hu
  obtain ⟨inv, try_, mtx, woken, pc, cs, workers, mem, log, exits, ab⟩ := c
  simp only at hpc hab hu
  subst hpc hab
  simp [step, ownerStep, invaildate, schedule, schedule_callback, init, resume, hu.1, hu.2]

theorem invaildate_handshake_restores_flags_witness :
    (exec [.owner, .worker 0, .worker 0, .owner, .owner, .owner, .owner, .owner, .worker 0,
           .worker 0, .worker 0, .worker 0, .worker 0, .owner, .owner, .owner, .owner, .owner]
       (init [.schedule 5 false print, .invaildate] 0)).pc = .unlock ∧
    (step .owner (exec [.owner, .worker 0, .worker 0, .owner, .owner, .owner, .owner, .owner,
           .worker 0, .worker 0, .worker 0, .worker 0, .worker 0, .owner, .owner, .owner,
           .owner, .owner]
       (init [.schedule 5 false print, .invaildate] 0))).invaild = false :=
  ⟨by decide, (invaildate_handshake_restores_flags [.schedule 5 false print, .invaildate] 0
      [.owner, .worker 0, .worker 0, .owner, .owner, .owner, .owner, .owner, .worker 0,
           .worker 0, .worker 0, .worker 0, .worker 0, .owner, .owner, .owner, .owner, .owner]
      (by decide) (by decide)).2.2.1⟩

/-- C4: a single `schedule_callback` with `repeat = true` on a new Timer and no
call of `invaildate`. If the callback answers `true` to the results of the
first `n` invocations and `false` to the next result, then in every
interleaving there are at most `n + 1` invocations and the callback has
answered `true` at most `n` times, never more often than there were
invocations; once the thread is out of the loop there have been exactly `n + 1`
invocations and `n` answers `true`; and the thread does get there: after any
beginning, one action of the owner and `4 * n + 8` of the thread end the thread
with `invaild` set. -/
theorem schedule_callback_stops_at_first_false (interval : Nat) (cb : ρ → Bool)
    (func : Task σ ε ρ) (m : σ) (n : Nat) (s : List Actor)
    (hcont : ∀ j < n, verdict cb (outcomeAt func m j) = some true)
    (hstop : verdict cb (outcomeAt func m n) = some false) :
    (invocations (exec s (init [.schedule_callback interval true cb func] m)).log ≤ n + 1 ∧
     continues (exec s (init [.schedule_callback interval true cb func] m)).log ≤ n ∧
     continues (exec s (init [.schedule_callback interval true cb func] m)).log
       ≤ invocations (exec s (init [.schedule_callback interval true cb func] m)).log ∧
     invocations (exec s (init [.schedule_callback interval true cb func] m)).log
       ≤ continues (exec s (init [.schedule_callback interval true cb func] m)).log + 1) ∧
    ((exec s (init [.schedule_callback interval true cb func] m)).calls.length = 0 →
     (∀ w ∈ (exec s (init [.schedule_callback interval true cb func] m)).workers,
        w.leftLoop = true) →
     invocations (exec s (init [.schedule_callback interval true cb func] m)).log = n + 1 ∧
     continues (exec s (init [.schedule_callback interval true cb func] m)).log = n) ∧
    ((exec (s ++ .owner :: List.replicate (4 * n + 8) (.worker 0))
        (init [.schedule_callback interval true cb func] m)).workers = [] ∧
     (exec (s ++ .owner :: List.replicate (4 * n + 8) (.worker 0))
        (init [.schedule_callback interval true cb func] m)).invaild = true ∧
     invocations (exec (s ++ .owner :: List.replicate (4 * n + 8) (.worker 0))
        (init [.schedule_callback interval true cb func] m)).log = n + 1 ∧
     continues (exec (s ++ .owner :: List.replicate (4 * n + 8) (.worker 0))
        (init [.schedule_callback interval true cb func] m)).log = n) := by
  refine ⟨?_, ?_, ?_⟩
  · rcases loop_reach hcont hstop interval s with h | h
    · rw [h]; simp [init, resume, invocations, continues]
    · obtain ⟨b1, b2, b3, b4, -⟩ := loop_bounds h
      exact ⟨b1, b2, b3, b4⟩
  · intro hc hl
    rcases loop_reach hcont hstop interval s with h | h
    · rw [h] at hc; simp [init, resume] at hc
    · exact (loop_bounds h).2.2.2.2.2.1 hl
  · have hown : Loop n cb func m (exec (s ++ [.owner])
        (init [.schedule_callback interval true cb func] m)) := by
      rw [exec_append]
      simp only [exec]
      rcases loop_reach hcont hstop interval s with h | h
      · rw [h]; exact loop_first n interval cb func m
      · exact loop_step hcont hstop h .owner
    have hsplit : s ++ .owner :: List.replicate (4 * n + 8) (.worker 0)
        = (s ++ [.owner]) ++ List.replicate (4 * n + 8) (.worker 0) := by simp
    rw [hsplit, exec_append]
    generalize exec (s ++ [.owner]) (init [.schedule_callback interval true cb func] m) = c
      at hown
    have hrun := loop_run hcont hstop (4 * n + 8) hown
    have hend : Loop n cb func m (exec (List.replicate (4 * n + 8) (.worker 0)) c) := by
      clear hrun
      generalize 4 * n + 8 = k
      induction k generalizing c with
      | zero => exact hown
      | succ k ih =>
        simp only [List.replicate_succ, exec]
        exact ih _ (loop_step hcont hstop hown (.worker 0))
    obtain ⟨-, -, -, -, b5, -, -⟩ := loop_bounds hown
    obtain ⟨-, -, -, -, -, -, b7⟩ := loop_bounds hend
    have hw := b7 (by rw [hrun]; omega)
    obtain ⟨d1, d2⟩ := hend.done hw
    refine ⟨hw, ?_, d1, d2⟩
    rw [hend.flag, hw]
    rfl

theorem schedule_callback_stops_at_first_false_witness :
    verdict callback (outcomeAt print 0 7) = some false ∧
    invocations (exec ([] ++ .owner :: List.replicate (4 * 7 + 8) (.worker 0))
        (init [.schedule_callback 2000 true callback print] 0)).log = 8 :=
  ⟨by decide,
   (schedule_callback_stops_at_first_false 2000 callback print 0 7 [] (by decide)
      (by decide)).2.2.2.2.1⟩

/-- C5, as stated, fails: the thread of `schedule(5, false, print)` on a new
Timer has ended before the owner calls `invaildate`; that call returns at once
and leaves `invaild` set; the second `schedule(5, false, print)` then starts no
thread and the task is not invoked again, whereas the same call on a new Timer
starts a thread that invokes the task. -/
theorem reuse_after_immediate_return_starts_nothing :
    (exec [.owner, .worker 0, .worker 0, .worker 0, .worker 0, .worker 0, .worker 0,
           .worker 0, .owner]
       (init [.schedule 5 false print, .invaildate, .schedule 5 false print] 0)).exits
      = [.immediate] ∧
    (exec [.owner, .worker 0, .worker 0, .worker 0, .worker 0, .worker 0, .worker 0,
           .worker 0, .owner]
       (init [.schedule 5 false print, .invaildate, .schedule 5 false print] 0)).calls.length
      = 1 ∧
    (exec [.owner, .worker 0, .worker 0, .worker 0, .worker 0, .worker 0, .worker 0,
           .worker 0, .owner]
       (init [.schedule 5 false print, .invaildate, .schedule 5 false print] 0)).invaild
      = true ∧
    (exec [.owner, .worker 0, .worker 0, .worker 0, .worker 0, .worker 0, .worker 0,
           .worker 0, .owner, .owner]
       (init [.schedule 5 false print, .invaildate, .schedule 5 false print] 0)).calls.length
      = 0 ∧
    (exec [.owner, .worker 0, .worker 0, .worker 0, .worker 0, .worker 0, .worker 0,
           .worker 0, .owner, .owner]
       (init [.schedule 5 false print, .invaildate, .schedule 5 false print] 0)).workers.length
      = 0 ∧
    invocations (exec [.owner, .worker 0, .worker 0, .worker 0, .worker 0, .worker 0,
           .worker 0, .worker 0, .owner, .owner, .worker 0, .worker 0]
       (init [.schedule 5 false print, .invaildate, .schedule 5 false print] 0)).log = 1 ∧
    (exec [.owner] (init [.schedule 5 false print] 1)).workers.length = 1 ∧
    invocations (exec [.owner, .worker 0, .worker 0]
       (init [.schedule 5 false print] 1)).log = 1 := by
  decide

/-- C5, amended: one scheduling call on a new Timer, then `invaildate`, then
any further calls. In every interleaving in which that `invaildate` has
returned through its blocking path, both flags are false, `mtx` is free and no
background thread is live; a scheduling call that follows starts a background
thread, and whatever the owner and the threads do from there is what they do on
a new Timer with the same task memory, the log and the exit so far put in
front. -/
theorem reuse_after_handshake_is_as_new (first : Call σ ε ρ) (hf : first.isSchedule = true)
    (rest : List (Call σ ε ρ)) (m : σ) (s s2 : List Actor)
    (hlen : (exec s (init (first :: .invaildate :: rest) m)).calls.length = rest.length)
    (hpc : (exec s (init (first :: .invaildate :: rest) m)).pc = .idle)
    (hex : (exec s (init (first :: .invaildate :: rest) m)).exits = [.handshake]) :
    (exec s (init (first :: .invaildate :: rest) m)).invaild = false ∧
    (exec s (init (first :: .invaildate :: rest) m)).try_to_invaild = false ∧
    (exec s (init (first :: .invaildate :: rest) m)).mtx = false ∧
    (exec s (init (first :: .invaildate :: rest) m)).workers = [] ∧
    (∀ second rest', rest = second :: rest' → second.isSchedule = true →
      (step .owner (exec s (init (first :: .invaildate :: rest) m))).workers.length = 1) ∧
    exec s2 (exec s (init (first :: .invaildate :: rest) m))
      = withHistory (exec s (init (first :: .invaildate :: rest) m)).log [.handshake]
          (exec s2 (init rest (exec s (init (first :: .invaildate :: rest) m)).memory)) := by
  have hr := (returned_of_reach first hf rest m s hlen hpc).fresh hex
  generalize exec s (init (first :: .invaildate :: rest) m) = c at hr
  rw [← exec_withHistory, ← resume_eq_withHistory, ← hr]
  refine ⟨by rw [hr]; rfl, by rw [hr]; rfl, by rw [hr]; rfl, by rw [hr]; rfl, ?_, rfl⟩
  intro second rest' hrest hsec
  rw [hr, hrest]
  cases second <;> simp [Call.isSchedule] at hsec <;>
    simp [step, ownerStep, invaildate, schedule, schedule_callback, resume]

theorem reuse_after_handshake_is_as_new_witness :
    (exec [.owner, .worker 0, .worker 0, .owner, .owner, .owner, .owner, .owner, .worker 0,
           .worker 0, .worker 0, .worker 0, .worker 0, .owner, .owner, .owner, .owner, .owner,
           .owner]
       (init [.schedule 5 false print, .invaildate, .schedule 7 true print] 0)).exits
      = [.handshake] ∧
    (step .owner
      (exec [.owner, .worker 0, .worker 0, .owner, .owner, .owner, .owner, .owner, .worker 0,
           .worker 0, .worker 0, .worker 0, .worker 0, .owner, .owner, .owner, .owner, .owner,
           .owner]
       (init [.schedule 5 false print, .invaildate, .schedule 7 true print] 0))).workers.length
      = 1 :=
  ⟨by decide, (reuse_after_handshake_is_as_new (.schedule 5 false print) rfl
      [.schedule 7 true print] 0
      [.owner, .worker 0, .worker 0, .owner, .owner, .owner, .owner, .owner, .worker 0,
           .worker 0, .worker 0, .worker 0, .worker 0, .owner, .owner, .owner, .owner, .owner,
           .owner] [] (by decide) (by decide) (by decide)).2.2.2.2.1 _ _ rfl rfl⟩

/-- C6: one scheduling call on a new Timer, then `invaildate`. If, when the
owner is about to call `invaildate`, the background thread has already stored
`invaild = true` (it is past line 109, or has ended), then the flag is set and
the call returns in its first action: it records the immediate exit and changes
nothing else, so `try_to_invaild` is not set, `mtx` is not locked and the owner
never waits. -/
theorem invaildate_after_loop_end_returns_at_once (first : Call σ ε ρ)
    (hf : first.isSchedule = true) (rest : List (Call σ ε ρ)) (m : σ) (s : List Actor)
    (hlen : (exec s (init (first :: .invaildate :: rest) m)).calls.length = rest.length + 1)
    (hpc : (exec s (init (first :: .invaildate :: rest) m)).pc = .idle)
    (hset : flagSet (exec s (init (first :: .invaildate :: rest) m)).workers = true)
    (hab : (exec s (init (first :: .invaildate :: rest) m)).aborted = false) :
    (exec s (init (first :: .invaildate :: rest) m)).invaild = true ∧
    (exec s (init (first :: .invaildate :: rest) m)).try_to_invaild = false ∧
    step .owner (exec s (init (first :: .invaildate :: rest) m))
      = { exec s (init (first :: .invaildate :: rest) m) with
          calls := rest,
          exits := (exec s (init (first :: .invaildate :: rest) m)).exits ++ [.immediate] } := by
  have hi := inCall_of_reach first hf rest m s hlen
  generalize exec s (init (first :: .invaildate :: rest) m) = c at hi hpc hset hab
  obtain ⟨c1, c2, c3, c4, c5, c6⟩ := hi
  obtain ⟨inv, try_, mtx, woken, pc, calls, workers, mem, log, exits, ab⟩ := c
  simp only at c1 c2 c3 c4 c5 c6 hpc hset hab
  subst hpc hab c1
  simp [hset] at c5
  simp [tryOn] at c4
  subst c4 c5
  simp [step, ownerStep, invaildate, schedule, schedule_callback, List.tail_cons]

theorem invaildate_after_loop_end_returns_at_once_witness :
    flagSet (exec (.owner :: List.replicate 36 (.worker 0))
      (init [.schedule_callback 2000 true callback print, .invaildate] 0)).workers = true ∧
    (step .owner (exec (.owner :: List.replicate 36 (.worker 0))
      (init [.schedule_callback 2000 true callback print, .invaildate] 0))).exits
      = [.immediate] :=
  ⟨by decide, by
    rw [(invaildate_after_loop_end_returns_at_once
      (.schedule_callback 2000 true callback print) rfl [] 0
      (.owner :: List.replicate 36 (.worker 0)) (by decide) (by decide) (by decide)
      (by decide)).2.2]
    decide⟩

/-- C7: on a Timer whose flags are both false and that has no live background
thread (a new one, or one on which a handshake has been completed), a call of
`invaildate`, and so the destructor, never returns: in every interleaving the
call is still in progress, at or before the wait, no exit has been recorded and
`invaild` is still false. -/
theorem invaildate_on_idle_timer_never_returns (rest : List (Call σ ε ρ)) (m : σ)
    (log : List Event) (exits : List Exit) (s : List Actor) :
    ((exec s (resume (.invaildate :: rest) m log exits)).calls = .invaildate :: rest ∧
     (exec s (resume (.invaildate :: rest) m log exits)).exits = exits ∧
     (exec s (resume (.invaildate :: rest) m log exits)).invaild = false ∧
     pastWait (exec s (resume (.invaildate :: rest) m log exits)).pc = false) ∧
    ((exec s (resume (Call.destructor :: rest) m log exits)).calls = Call.destructor :: rest ∧
     (exec s (resume (Call.destructor :: rest) m log exits)).exits = exits ∧
     (exec s (resume (Call.destructor :: rest) m log exits)).invaild = false ∧
     pastWait (exec s (resume (Call.destructor :: rest) m log exits)).pc = false) := by
  have h : Stuck rest log exits (exec s (resume (.invaildate :: rest) m log exits)) :=
    stuck_exec s ⟨rfl, rfl, rfl, rfl, rfl, rfl, rfl⟩
  exact ⟨⟨h.calls, h.exits, h.flag, h.wait⟩, ⟨h.calls, h.exits, h.flag, h.wait⟩⟩

/-- C8, as stated, fails for `schedule`: with `repeat = true` and a task that
always throws, the thread goes on after the failed first invocation and invokes
the task again; nothing is propagated, and when the owner calls `invaildate`
the thread stores `invaild = true` and the call returns. -/
theorem failure_in_schedule_is_swallowed :
    (failing 0).1 = .error () ∧ (failing 1).1 = .error () ∧
    invocations (exec [.owner, .worker 0, .worker 0]
      (init [.schedule 2000 true failing, .invaildate] 0)).log = 1 ∧
    invocations (exec [.owner, .worker 0, .worker 0, .worker 0, .worker 0, .worker 0]
      (init [.schedule 2000 true failing, .invaildate] 0)).log = 2 ∧
    (exec [.owner, .worker 0, .worker 0, .worker 0, .worker 0, .worker 0]
      (init [.schedule 2000 true failing, .invaildate] 0)).aborted = false ∧
    (exec [.owner, .worker 0, .worker 0, .worker 0, .worker 0, .worker 0, .owner, .owner,
           .owner, .worker 0, .worker 0, .worker 0]
      (init [.schedule 2000 true failing, .invaildate] 0)).invaild = true ∧
    (exec [.owner, .worker 0, .worker 0, .worker 0, .worker 0, .worker 0, .owner, .owner,
           .owner, .worker 0, .worker 0, .worker 0, .worker 0, .worker 0, .owner, .owner,
           .owner, .owner, .owner, .owner]
      (init [.schedule 2000 true failing, .invaildate] 0)).exits = [.handshake] := by
  refine ⟨rfl, rfl, ?_⟩
  decide

/-- C8, amended: a single `schedule_callback` (with any `repeat`) on a new
Timer, followed by `invaildate`. If an invocation of the task fails, the next
action of the thread, `ret.get()`, rethrows the exception out of the thread
function and the process is terminated; in every interleaving after the failed
invocation the log stays as it is (no further invocation, the callback is not
consulted), `invaild` stays false and `invaildate` does not return. -/
theorem failure_in_schedule_callback_ends_the_schedule (interval : Nat) (rep : Bool)
    (cb : ρ → Bool) (func : Task σ ε ρ) (m : σ) (s1 s2 : List Actor) (w : Worker σ ε ρ) (e : ε)
    (hw : (exec s1 (init [.schedule_callback interval rep cb func, .invaildate] m)).workers
            = [w])
    (hpc : w.pc = .invoke)
    (hfail : (w.func (exec s1
        (init [.schedule_callback interval rep cb func, .invaildate] m)).memory).1 = .error e)
    (hal : (exec s1 (init [.schedule_callback interval rep cb func, .invaildate] m)).aborted
            = false) :
    (exec s2 (step (.worker 0)
        (exec s1 (init [.schedule_callback interval rep cb func, .invaildate] m)))).log
      = (exec s1 (init [.schedule_callback interval rep cb func, .invaildate] m)).log
          ++ [.invoked] ∧
    (exec s2 (step (.worker 0)
        (exec s1 (init [.schedule_callback interval rep cb func, .invaildate] m)))).invaild
      = false ∧
    (exec s2 (step (.worker 0)
        (exec s1 (init [.schedule_callback interval rep cb func, .invaildate] m)))).exits
      = [] ∧
    (exec (s2 ++ [.worker 0]) (step (.worker 0)
        (exec s1 (init [.schedule_callback interval rep cb func, .invaildate] m)))).aborted
      = true := by
  have hcb : w.callback.isSome = true := by
    rcases callbackRun_reach interval rep cb func m s1 with h | h
    · rw [h] at hw; simp [init, resume] at hw
    · exact h.cb w (by rw [hw]; simp)
  have hns : noSchedule
      (exec s1 (init [.schedule_callback interval rep cb func, .invaildate] m)).calls := by
    rcases callbackRun_reach interval rep cb func m s1 with h | h
    · rw [h] at hw; simp [init, resume] at hw
    · exact h.calls
  have hstep : step (.worker 0)
      (exec s1 (init [.schedule_callback interval rep cb func, .invaildate] m))
      = exec (s1 ++ [.worker 0])
          (init [.schedule_callback interval rep cb func, .invaildate] m) := by
    rw [exec_append]; rfl
  have hfailed : Failed
      ((exec s1 (init [.schedule_callback interval rep cb func, .invaildate] m)).log
        ++ [.invoked])
      (step (.worker 0)
        (exec s1 (init [.schedule_callback interval rep cb func, .invaildate] m))) := by
    generalize exec s1 (init [.schedule_callback interval rep cb func, .invaildate] m) = c
      at hw hfail hal hns
    obtain ⟨inv, try_, mtx, woken, pc, calls, workers, mem, lg, exits, ab⟩ := c
    obtain ⟨wpc, wi, wr, wcb, wf, wk, wret⟩ := w
    simp only at hw hpc hfail hal hcb hns
    subst hw hpc hal
    rcases wcb with _ | cb'
    · simp at hcb
    · refine ⟨hns, rfl, _, e, rfl, ?_, rfl, ?_⟩
      · simp
      · simp [hfail]
  have h2 := failed_exec s2 hfailed
  have hph := phase_reach (.schedule_callback interval rep cb func) rfl [] m
    (s1 ++ [.worker 0] ++ s2)
  rw [exec_append, ← hstep] at hph
  obtain ⟨w', e', hw', hpc', -, -⟩ := h2.thrown
  have hin : InCall []
      (exec s2 (step (.worker 0)
        (exec s1 (init [.schedule_callback interval rep cb func, .invaildate] m)))) := by
    rcases hph with hp | hp | hp
    · rw [hp] at hw'; simp [init, resume] at hw'
    · exact hp
    · exfalso
      have hl := (late_nil_returned hp).left w' (by rw [hw']; simp)
      simp [Worker.leftLoop, hpc'] at hl
  refine ⟨h2.log, ?_, hin.exits, ?_⟩
  · rw [hin.flag, hw']
    simp [flagSet, hpc']
  · rw [exec_append]
    exact (failed_step h2 (.worker 0)).2 rfl

theorem failure_in_schedule_callback_ends_the_schedule_witness :
    (exec [.owner, .worker 0, .owner, .owner]
       (init [.schedule_callback 2000 true callback failing, .invaildate] 0)).aborted = false ∧
    (exec ([.owner, .owner, .owner, .spurious] ++ [.worker 0]) (step (.worker 0)
       (exec [.owner, .worker 0, .owner, .owner]
       (init [.schedule_callback 2000 true callback failing, .invaildate] 0)))).aborted = true :=
  ⟨by decide,
   (failure_in_schedule_callback_ends_the_schedule 2000 true callback failing 0
      [.owner, .worker 0, .owner, .owner] [.owner, .owner, .owner, .spurious]
      { Worker.start 2000 true (some callback) failing with pc := .invoke } ()
      rfl rfl rfl (by decide)).2.2.2⟩

/-- C9: the claim fails on the code for an interval from `2^63` on. In
`wait_sync(9223372036854775808, print, ...)` the duration `time_unit(interval)`
of line 174 has the count `-9223372036854775808`, so `sleep_for` is handed a
negative duration and does not block; the task is then invoked once and its
value returned, and no member of the Timer is touched. One unit below, the
count is the interval. -/
theorem wait_sync_does_not_sleep_for_huge_interval :
    time_unit 9223372036854775808 = -9223372036854775808 ∧
    (wait_sync 9223372036854775808 print (init ([] : List (Call Nat Unit Nat)) 0)).2.log
      = [.slept (-9223372036854775808), .invoked] ∧
    (wait_sync 9223372036854775808 print (init ([] : List (Call Nat Unit Nat)) 0)).2.memory
      = 1 ∧
    (wait_sync 9223372036854775808 print (init ([] : List (Call Nat Unit Nat)) 0)).1
      = .ok 1 ∧
    time_unit 9223372036854775807 = 9223372036854775807 := by
  refine ⟨by decide, by decide, by decide, rfl, by decide⟩

/-- C10: a single `schedule` with `repeat = true` on a new Timer, followed by
`invaildate`. Suppose the owner is about to store `try_to_invaild = true` (line
64) while the thread is in its `k`-th iteration, sleeping or about to invoke
the task. Then after the store, in every interleaving, the invocations made
plus the one the thread still owes to this iteration are exactly `k`; three
more actions of the thread, whatever came before, take it out of the loop, and
then the task has been invoked exactly `k` times. The invocations are runs of
the task that was handed to `schedule`: in every interleaving the memory is
what as many runs of `func` as the log has invocations make of the memory at
the start, and once the thread is out of the loop the memory is the one left
by one more run of `func` on the memory as it was at the store, with the
outcome of that run in the future of the thread. -/
theorem cancellation_is_seen_at_the_check (interval : Nat) (func : Task σ ε ρ) (m : σ)
    (s1 s2 : List Actor) (k : Nat) (w : Worker σ ε ρ)
    (hpc : (exec s1 (init [.schedule interval true func, .invaildate] m)).pc = .setTry)
    (hw : (exec s1 (init [.schedule interval true func, .invaildate] m)).workers = [w])
    (hin : w.pc = .sleep ∨ w.pc = .invoke)
    (hk : invocations (exec s1 (init [.schedule interval true func, .invaildate] m)).log + 1
            = k) :
    (step .owner (exec s1 (init [.schedule interval true func, .invaildate] m))).try_to_invaild
      = true ∧
    invocations (exec s2 (step .owner
        (exec s1 (init [.schedule interval true func, .invaildate] m)))).log
      + due (exec s2 (step .owner
        (exec s1 (init [.schedule interval true func, .invaildate] m)))).workers = k ∧
    (∀ w' ∈ (exec (s2 ++ [.worker 0, .worker 0, .worker 0]) (step .owner
        (exec s1 (init [.schedule interval true func, .invaildate] m)))).workers,
      w'.leftLoop = true) ∧
    invocations (exec (s2 ++ [.worker 0, .worker 0, .worker 0]) (step .owner
        (exec s1 (init [.schedule interval true func, .invaildate] m)))).log = k ∧
    (exec s2 (step .owner
        (exec s1 (init [.schedule interval true func, .invaildate] m)))).memory
      = memAfter func m (invocations (exec s2 (step .owner
          (exec s1 (init [.schedule interval true func, .invaildate] m)))).log) ∧
    (exec (s2 ++ [.worker 0, .worker 0, .worker 0]) (step .owner
        (exec s1 (init [.schedule interval true func, .invaildate] m)))).memory
      = (func (exec s1 (init [.schedule interval true func, .invaildate] m)).memory).2 ∧
    (∀ w' ∈ (exec (s2 ++ [.worker 0, .worker 0, .worker 0]) (step .owner
        (exec s1 (init [.schedule interval true func, .invaildate] m)))).workers,
      w'.func = func ∧
      w'.ret = some (func (exec s1
        (init [.schedule interval true func, .invaildate] m)).memory).1) := by
  have hi := inCall_of_inside (.schedule interval true func) rfl m s1
    (by rw [hpc]; simp)
  have hrun : PlainRun true (exec s1 (init [.schedule interval true func, .invaildate] m)) := by
    rcases plainRun_reach interval true func m s1 with h | h
    · rw [h] at hpc; simp [init, resume] at hpc
    · exact h
  have hafter : After k (step .owner
      (exec s1 (init [.schedule interval true func, .invaildate] m))) := by
    have hr' := plainRun_step hrun .owner
    generalize exec s1 (init [.schedule interval true func, .invaildate] m) = c
      at hpc hw hk hi hrun hr'
    obtain ⟨c1, c2, c3, c4, c5, c6⟩ := hi
    have hal := hrun.alive
    obtain ⟨inv, try_, mtx, woken, pc, calls, workers, mem, log, exits, ab⟩ := c
    simp only at hpc hw hk c5 hal
    subst hpc hw hal
    have hfl : inv = false := by
      rcases hin with h | h <;> simp [flagSet, h] at c5 <;> exact c5
    subst hfl
    refine ⟨hr', ?_, ?_⟩
    · simp only [step, ownerStep, invaildate, schedule, schedule_callback, List.tail_cons]
      rcases hin with h | h <;> simp [due, h] <;> exact hk
    · intro w' _ _
      simp [step, ownerStep, invaildate, schedule, schedule_callback, List.tail_cons]
  have hs2 := after_exec s2 hafter
  have hreach : ∀ t, exec t (step .owner
      (exec s1 (init [.schedule interval true func, .invaildate] m)))
      = exec (s1 ++ [.owner] ++ t) (init [.schedule interval true func, .invaildate] m) := by
    intro t
    rw [exec_append, exec_append]
    rfl
  have hleft : ∀ w' ∈ (exec (s2 ++ [.worker 0, .worker 0, .worker 0]) (step .owner
      (exec s1 (init [.schedule interval true func, .invaildate] m)))).workers,
      w'.leftLoop = true := by
    have h3 := after_exec (s2 ++ [.worker 0, .worker 0, .worker 0]) hafter
    refine left_of_toLeave h3.run ?_
    rw [exec_append]
    exact after_worker_thrice hs2
  have hcount : invocations (exec (s2 ++ [.worker 0, .worker 0, .worker 0]) (step .owner
      (exec s1 (init [.schedule interval true func, .invaildate] m)))).log = k := by
    have h3 := after_exec (s2 ++ [.worker 0, .worker 0, .worker 0]) hafter
    have ht : toLeave (exec (s2 ++ [.worker 0, .worker 0, .worker 0]) (step .owner
        (exec s1 (init [.schedule interval true func, .invaildate] m)))).workers = 0 := by
      rw [exec_append]
      exact after_worker_thrice hs2
    have hd := due_le_toLeave (exec (s2 ++ [.worker 0, .worker 0, .worker 0]) (step .owner
        (exec s1 (init [.schedule interval true func, .invaildate] m)))).workers
    have hc := h3.count
    omega
  have hmem1 := (ran_reach interval true func m s1).mem
  have hkm : k - 1
      = invocations (exec s1 (init [.schedule interval true func, .invaildate] m)).log := by
    omega
  refine ⟨?_, hs2.count, hleft, hcount, ?_, ?_, ?_⟩
  · have hal := hrun.alive
    generalize exec s1 (init [.schedule interval true func, .invaildate] m) = c at hpc hal
    obtain ⟨inv, try_, mtx, woken, pc, calls, workers, mem, log, exits, ab⟩ := c
    simp only at hpc hal
    subst hpc hal
    simp [step, ownerStep, invaildate, schedule, schedule_callback, List.tail_cons]
  · rw [hreach]
    have hr := (ran_reach interval true func m (s1 ++ [.owner] ++ s2)).mem
    exact hr
  · have hr := (ran_reach interval true func m
      (s1 ++ [.owner] ++ (s2 ++ [.worker 0, .worker 0, .worker 0]))).mem
    rw [← hreach, hcount] at hr
    rw [hr, hmem1, ← hkm]
    have hk1 : k = (k - 1) + 1 := by omega
    rw [hk1]
    rfl
  · intro w' hw'
    have hr := ran_reach interval true func m
      (s1 ++ [.owner] ++ (s2 ++ [.worker 0, .worker 0, .worker 0]))
    rw [← hreach] at hr
    refine ⟨hr.bound w' hw', ?_⟩
    have hk' := (hr.kept w' hw' (Or.inl (hleft w' hw'))).1
    rw [hcount] at hk'
    rw [hk', hmem1, ← hkm]
    rfl

theorem cancellation_is_seen_at_the_check_witness :
    (exec [.owner, .worker 0, .worker 0, .worker 0, .worker 0, .owner, .owner]
       (init [.schedule 2000 true print, .invaildate] 0)).pc = .setTry ∧
    invocations (exec ([.owner, .worker 0] ++ [.worker 0, .worker 0, .worker 0])
      (step .owner (exec [.owner, .worker 0, .worker 0, .worker 0, .worker 0, .owner, .owner]
       (init [.schedule 2000 true print, .invaildate] 0)))).log = 2 :=
  ⟨by decide,
   (cancellation_is_seen_at_the_check 2000 print 0
      [.owner, .worker 0, .worker 0, .worker 0, .worker 0, .owner, .owner] [.owner, .worker 0] 2
      { Worker.start 2000 true none print with pc := .invoke }
      (by decide) rfl (Or.inr rfl) (by decide)).2.2.2.1⟩

end Timer
